import Mathlib

/-!
# Gradient of the elementwise division operator

A shallow embedding of `caffe2/operators/elementwise_div_op.cc`:
the general kernel `ComputeDivGradient`, the entry point
`DivFunctor<CPUContext>::Backward` and the gradient maker `GetDivGradient`.

Conventions of the embedding.

* A raw pointer `T*` is a map from offsets to elements, `Nat → α`; a store
  `p[i] = v` is `Function.update p i v`.  The five buffers `dC`, `B`, `C`, `dA`,
  `dB` are distinct regions (no aliasing).
* The element type is an arbitrary type `α` carrying `0`, `+`, unary `-`, `*`
  and `/`; no law is assumed of them unless a theorem says so.  The source's
  `TGrad`, `TIn`, `TOut` are instantiated to one and the same type by the
  operator registration.
* A dimension array (`const int*` together with its length, or a
  `std::vector<int>`) is a `List Nat`: sizes are non-negative, and the `int`
  products of the source are taken without overflow.
* An access past the end of a buffer is an access of the map at that offset; that
  the indices of the kernel stay within the buffers is a property of its own.
* Where the representation of a floating-point result matters (the sign of a
  zero), the element type is `IeeeValue`, the IEEE-754 special values over exact
  finite arithmetic.
* An exception leaving `Backward` is the `error` case of `Except`.
-/

namespace caffe2

/-- The failure of the shape resolver, the only one `Backward` can end with. -/
inductive Error where
  | IncompatibleShapeError
  deriving DecidableEq, Repr

/-- The operator definition a gradient maker emits, reduced to the four fields
`GetGradientDefs` fills in. -/
structure OperatorDef where
  type : String
  name : String
  input : List String
  output : List String
  deriving DecidableEq, Repr

namespace math

/-- Modelled from the spec: `math::Set<T, CPUContext>(N, alpha, Y, context)`, the
backend primitive that stores `alpha` into the first `N` elements of `Y`; its
source lies outside the translated file. -/
def Set {α : Type} (N : Nat) (alpha : α) (Y : Nat → α) : Nat → α :=
  fun i => if i < N then alpha else Y i

/-- Modelled from the spec: `math::Div(N, a, b, y, context)`, the backend
primitive that stores `a[i] / b[i]` into `y[i]` for the first `N` elements; its
source lies outside the translated file. -/
def Div {α : Type} [HDiv α α α] (N : Nat) (a b y : Nat → α) : Nat → α :=
  fun i => if i < N then a i / b i else y i

namespace utils

/-- Modelled from the spec: `math::utils::GetIndexFromDims(n, dims, index)`, whose
source lies outside the translated file.  It maps a multi-index to the flat
row-major offset in a buffer of shape `dims`, where a dimension of size 1
contributes stride 0, that is, the component of the multi-index on that axis is
ignored.  The offset is accumulated from the leftmost axis. -/
def GetIndexFromDims (n : Nat) (dims index : List Nat) : Nat :=
  ((dims.take n).zip (index.take n)).foldl
    (fun sum di => if di.1 = 1 then sum else sum * di.1 + di.2) 0

/-- One pass of the carry chain of `IncreaseIndexInDims`, from the rightmost
axis: the new components and whether the carry leaves on the left. -/
def IncreaseIndexInDimsCarry : List Nat → List Nat → List Nat × Bool
  | d :: dims, i :: index =>
    let r := IncreaseIndexInDimsCarry dims index
    if r.2 then
      if i + 1 ≥ d then (0 :: r.1, true) else ((i + 1) :: r.1, false)
    else (i :: r.1, false)
  | _, _ => ([], true)

/-- Modelled from the spec: `math::utils::IncreaseIndexInDims(n, dims, index)`,
whose source lies outside the translated file.  It advances the multi-index by one
step in row-major order relative to `dims`: the rightmost component is
incremented; on overflow it is reset to 0 and the carry goes into the next
component on the left. -/
def IncreaseIndexInDims (n : Nat) (dims index : List Nat) : List Nat :=
  (IncreaseIndexInDimsCarry (dims.take n) (index.take n)).1 ++ index.drop n

/-- Modelled from the spec: `math::utils::ComputeBroadcastBinaryOpDims`, whose
source lies outside the translated file.  The shorter shape is padded on the left
with 1s; an aligned pair of sizes is compatible when the two are equal or one of
them is 1, otherwise the resolver signals `IncompatibleShapeError`; the output
size at each position is the maximum of the two. -/
def ComputeBroadcastBinaryOpDims (A_ndim : Nat) (A_dims : List Nat)
    (B_ndim : Nat) (B_dims : List Nat) :
    Except Error (List Nat × List Nat × List Nat) :=
  let ndim := max A_ndim B_ndim
  let A_broadcast_dims := List.replicate (ndim - A_ndim) 1 ++ A_dims.take A_ndim
  let B_broadcast_dims := List.replicate (ndim - B_ndim) 1 ++ B_dims.take B_ndim
  if (A_broadcast_dims.zip B_broadcast_dims).all
      (fun ab => ab.1 = ab.2 ∨ ab.1 = 1 ∨ ab.2 = 1) then
    .ok (A_broadcast_dims, B_broadcast_dims,
      List.zipWith max A_broadcast_dims B_broadcast_dims)
  else
    .error Error.IncompatibleShapeError

end utils

end math

/-- The body of the loop of `ComputeDivGradient` (lines 34-40), on the state
`(dA, dB, index)`, at the iteration `C_index`. -/
def ComputeDivGradientBody {α : Type} [Add α] [Neg α] [Mul α] [Div α]
    (ndim : Nat) (A_dims B_dims C_dims : List Nat) (dC B C : Nat → α)
    (s : (Nat → α) × (Nat → α) × List Nat) (C_index : Nat) :
    (Nat → α) × (Nat → α) × List Nat :=
  let dA := s.1
  let dB := s.2.1
  let index := s.2.2
  let A_index := math.utils.GetIndexFromDims ndim A_dims index
  let B_index := math.utils.GetIndexFromDims ndim B_dims index
  let dA := Function.update dA A_index (dA A_index + dC C_index / B B_index)
  let dB := Function.update dB B_index
    (dB B_index + -dC C_index * C C_index / B B_index)
  (dA, dB, math.utils.IncreaseIndexInDims ndim C_dims index)

/-- The general kernel `ComputeDivGradient`: both gradients are zeroed, then the
output space is walked once and every position adds its term. -/
def ComputeDivGradient {α : Type} [Zero α] [Add α] [Neg α] [Mul α] [Div α]
    (ndim : Nat) (A_dims B_dims C_dims : List Nat) (dC B C : Nat → α)
    (dA dB : Nat → α) : (Nat → α) × (Nat → α) :=
  let A_size := (A_dims.take ndim).foldl (· * ·) 1
  let B_size := (B_dims.take ndim).foldl (· * ·) 1
  let C_size := (C_dims.take ndim).foldl (· * ·) 1
  let dA := math.Set A_size (0 : α) dA
  let dB := math.Set B_size (0 : α) dB
  let index := List.replicate ndim 0
  let s := (List.range C_size).foldl
    (ComputeDivGradientBody ndim A_dims B_dims C_dims dC B C) (dA, dB, index)
  (s.1, s.2.1)

namespace DivFunctor

/-- The entry point `DivFunctor<CPUContext>::Backward`.  The argument `A` is the
unnamed, unused parameter of the source.  The result carries the returned
`bool` and the final contents of `dA` and `dB`. -/
def Backward {α : Type} [Zero α] [Add α] [Neg α] [Mul α] [Div α]
    (A_dims B_dims : List Nat) (dC _A B C : Nat → α) (dA dB : Nat → α) :
    Except Error (Bool × (Nat → α) × (Nat → α)) :=
  if A_dims = B_dims then
    let size := A_dims.foldl (· * ·) 1
    let dA := math.Div size dC B dA
    let dB := fun i => if i < size then -dC i * C i / B i else dB i
    .ok (true, dA, dB)
  else
    let ndim := max A_dims.length B_dims.length
    match math.utils.ComputeBroadcastBinaryOpDims
        A_dims.length A_dims B_dims.length B_dims with
    | .error e => .error e
    | .ok (A_broadcast_dims, B_broadcast_dims, C_broadcast_dims) =>
      let r := ComputeDivGradient ndim A_broadcast_dims B_broadcast_dims
        C_broadcast_dims dC B C dA dB
      .ok (true, r.1, r.2)

end DivFunctor

/-- Modelled from the spec: `GradientMakerBase::SingleGradientDef`, whose source
lies outside the translated file: it builds the single gradient node from the
operator type, the name, the inputs and the outputs. -/
def SingleGradientDef (type name : String) (input output : List String) :
    List OperatorDef :=
  [OperatorDef.mk type name input output]

namespace GetDivGradient

/-- The method `GetDivGradient::GetGradientDefs`.  The blob-name accessors of
the base class are parameters: `GO i` names the gradient of output `i`, `I i`
the forward input `i`, `O i` the forward output `i`, `GI i` the gradient of
input `i`. -/
def GetGradientDefs (GO I O GI : Nat → String) : List OperatorDef :=
  SingleGradientDef "DivGradient" "" [GO 0, I 0, I 1, O 0] [GI 0, GI 1]

end GetDivGradient

/-! ## Reference notions used to state the properties -/

/-- The row-major (rightmost fastest) coordinate vector of the flat index `k` in
a space of shape `dims`: the component on an axis is `k` divided by the stride
of the axis, modulo the size of the axis. -/
def unravelIndex : List Nat → Nat → List Nat
  | [], _ => []
  | d :: dims, k => (k / dims.prod) % d :: unravelIndex dims k

/-- The flat index, in a buffer of the broadcast-normalized shape `dims`, that
the flat output index `c` maps to: the row-major multi-index of `c` in the output
space `C_dims`, sent through the stride-0-on-size-1 mapping of `dims`. -/
def broadcastIndex (dims C_dims : List Nat) (c : Nat) : Nat :=
  math.utils.GetIndexFromDims C_dims.length dims (unravelIndex C_dims c)

/-- The sum of a list of terms taken in order, starting from zero:
`((0 + t₀) + t₁) + ...`; the empty sum is `0`. -/
def sumInOrder {α : Type} [Zero α] [Add α] (ts : List α) : α :=
  ts.foldl (· + ·) 0

/-- The buffer holding the elements of a list, zero past its end. -/
def bufferOf {α : Type} [Zero α] (l : List α) : Nat → α :=
  fun i => l.getD i 0

/-- Two shapes are broadcast-compatible when every right-aligned pair of sizes
is a pair of equal sizes or includes a 1. -/
def BroadcastCompatible (A_dims B_dims : List Nat) : Prop :=
  ∀ p ∈ A_dims.reverse.zip B_dims.reverse, p.1 = p.2 ∨ p.1 = 1 ∨ p.2 = 1

instance (A_dims B_dims : List Nat) : Decidable (BroadcastCompatible A_dims B_dims) := by
  unfold BroadcastCompatible
  infer_instance

/-- The shape `dims` padded on the left with 1s up to `n` dimensions. -/
def padLeft (n : Nat) (dims : List Nat) : List Nat :=
  List.replicate (n - dims.length) 1 ++ dims

/-- The first `n` elements of a buffer. -/
def readBuffer {α : Type} (p : Nat → α) (n : Nat) : List α :=
  (List.range n).map p

/-- What a caller observes of a call of `Backward` on inputs of shapes `A_dims`
and `B_dims`: the failure, or the returned flag with the contents of `dA` (as
many elements as the shape of `A` has) and of `dB` (as many as the shape of `B`
has). -/
def observed {α : Type} (A_dims B_dims : List Nat)
    (r : Except Error (Bool × (Nat → α) × (Nat → α))) :
    Except Error (Bool × List α × List α) :=
  match r with
  | .error e => .error e
  | .ok (flag, dA, dB) =>
    .ok (flag, readBuffer dA A_dims.prod, readBuffer dB B_dims.prod)

/-- The numerator of the worked example, of shape `[3, 1]`. -/
def exampleA : Nat → ℚ := bufferOf [2, 4, 6]

/-- The denominator of the worked example, of shape `[3, 4]`. -/
def exampleB : Nat → ℚ := bufferOf [1, 2, 1, 1, 2, 2, 2, 2, 3, 3, 3, 3]

/-- The forward output of the worked example, of shape `[3, 4]`: the element in
row `i`, column `j` (flat index `4 * i + j`) is `A[i][0] / B[i][j]`. -/
def exampleC : Nat → ℚ := fun c => exampleA (c / 4) / exampleB c

/-- The upstream gradient of the worked example: all ones, of shape `[3, 4]`. -/
def exampleDC : Nat → ℚ := bufferOf (List.replicate 12 1)

/-- An integer buffer used to instantiate the general statements:
`6, 7, 8, ...`. -/
def sampleDC : Nat → Int := fun c => (c : Int) + 6

/-- An integer buffer used to instantiate the general statements:
`1, 2, 3, ...`. -/
def sampleB : Nat → Int := fun c => (c : Int) + 1

/-- An integer buffer used to instantiate the general statements: all twos. -/
def sampleC : Nat → Int := fun _ => 2

/-- The row-major stride of axis `i` in a buffer of shape `dims`: the product of
the sizes of the axes to its right. -/
def strideOf (dims : List Nat) (i : Nat) : Nat :=
  (dims.drop (i + 1)).prod

/-- The row-major flat offset, in a buffer of shape `dims`, of the coordinate
obtained from `idx` by replacing its component with 0 on every axis of size 1:
the sum over the axes `i` of `strideOf dims i * (dims[i] = 1 ? 0 : idx[i])`. -/
def strideOffset (dims idx : List Nat) : Nat :=
  ((List.range dims.length).map
    (fun i => strideOf dims i * (if dims.getD i 0 = 1 then 0 else idx.getD i 0))).sum

/-- The values of an IEEE-754 binary format with their special cases: NaN, the
two infinities, the two zeros, and the nonzero finite numbers, `finite q` with
`q ≠ 0`.  Finite arithmetic is taken exactly (rounding, overflow and underflow
are not modelled); the signs of zeros and infinities and the NaN cases follow the
standard in its default rounding mode.  Equality of two values is equality of
their representations up to the payload of a NaN. -/
inductive IeeeValue where
  | nan
  | inf (negative : Bool)
  | zero (negative : Bool)
  | finite (q : ℚ)
  deriving DecidableEq

namespace IeeeValue

/-- IEEE addition: a sum of two zeros is `-0` only when both are `-0`, and an
exact zero sum of nonzero terms is `+0`. -/
def add : IeeeValue → IeeeValue → IeeeValue
  | nan, _ => nan
  | _, nan => nan
  | inf s, inf t => if s = t then inf s else nan
  | inf s, _ => inf s
  | _, inf t => inf t
  | zero s, zero t => zero (s && t)
  | zero _, finite q => finite q
  | finite p, zero _ => finite p
  | finite p, finite q => if p + q = 0 then zero false else finite (p + q)

/-- IEEE negation flips the sign, of a zero too. -/
def neg : IeeeValue → IeeeValue
  | nan => nan
  | inf s => inf (!s)
  | zero s => zero (!s)
  | finite q => finite (-q)

/-- IEEE multiplication: the sign of the product is the exclusive or of the signs,
and infinity times zero is NaN. -/
def mul : IeeeValue → IeeeValue → IeeeValue
  | nan, _ => nan
  | _, nan => nan
  | inf _, zero _ => nan
  | zero _, inf _ => nan
  | inf s, inf t => inf (xor s t)
  | inf s, finite q => inf (xor s (decide (q < 0)))
  | finite p, inf t => inf (xor (decide (p < 0)) t)
  | zero s, zero t => zero (xor s t)
  | zero s, finite q => zero (xor s (decide (q < 0)))
  | finite p, zero t => zero (xor (decide (p < 0)) t)
  | finite p, finite q => finite (p * q)

/-- IEEE division: the sign of the quotient is the exclusive or of the signs, a
nonzero number over zero is an infinity, and `0 / 0` and `inf / inf` are NaN. -/
def div : IeeeValue → IeeeValue → IeeeValue
  | nan, _ => nan
  | _, nan => nan
  | inf _, inf _ => nan
  | zero _, zero _ => nan
  | inf s, zero t => inf (xor s t)
  | inf s, finite q => inf (xor s (decide (q < 0)))
  | zero s, inf t => zero (xor s t)
  | zero s, finite q => zero (xor s (decide (q < 0)))
  | finite p, zero t => inf (xor (decide (p < 0)) t)
  | finite p, inf t => zero (xor (decide (p < 0)) t)
  | finite p, finite q => finite (p / q)

instance : Zero IeeeValue := ⟨zero false⟩

instance : Add IeeeValue := ⟨add⟩

instance : Neg IeeeValue := ⟨neg⟩

instance : Mul IeeeValue := ⟨mul⟩

instance : Div IeeeValue := ⟨div⟩

end IeeeValue

/-- An upstream gradient of shape `[2]` in IEEE values: `[+0, 2]`. -/
def ieeeDC : Nat → IeeeValue := bufferOf [IeeeValue.zero false, IeeeValue.finite 2]

/-- A denominator of shape `[2]` in IEEE values: `[1, 1]`. -/
def ieeeB : Nat → IeeeValue := bufferOf [IeeeValue.finite 1, IeeeValue.finite 1]

/-- A forward output of shape `[2]` in IEEE values: `[1, +0]`. -/
def ieeeC : Nat → IeeeValue := bufferOf [IeeeValue.finite 1, IeeeValue.zero false]

/-! ## Arithmetic of shapes -/

theorem foldl_mul_one_eq_prod (l : List Nat) : l.foldl (· * ·) 1 = l.prod := by
  rw [List.prod_eq_foldl]

theorem succ_div_of_mod_eq_zero (k P : Nat) (h : (k + 1) % P = 0) :
    (k + 1) / P = k / P + 1 := by
  rw [Nat.succ_div, if_pos (Nat.dvd_of_mod_eq_zero h)]

theorem succ_div_of_mod_ne_zero (k P : Nat) (h : (k + 1) % P ≠ 0) :
    (k + 1) / P = k / P := by
  rw [Nat.succ_div, if_neg (fun hd => h (Nat.mod_eq_zero_of_dvd hd))]
  simp

theorem succ_mod_wrap (q d : Nat) (hd : 0 < d) (h : q % d + 1 ≥ d) :
    (q + 1) % d = 0 := by
  have hlt := Nat.mod_lt q hd
  have h2 : q + 1 = d * (q / d + 1) := by
    have := Nat.div_add_mod q d
    rw [Nat.mul_add, Nat.mul_one]
    omega
  rw [h2, Nat.mul_mod_right]

theorem succ_mod_step (q d : Nat) (h : q % d + 1 < d) :
    (q + 1) % d = q % d + 1 := by
  have h2 : q + 1 = d * (q / d) + (q % d + 1) := by
    have := Nat.div_add_mod q d
    omega
  rw [h2, Nat.mul_add_mod, Nat.mod_eq_of_lt h]

theorem mod_mul_eq_zero_iff (x P d : Nat) :
    x % (d * P) = 0 ↔ x % P = 0 ∧ x / P % d = 0 := by
  rw [Nat.mul_comm d P, Nat.mod_mul]
  constructor
  · intro h
    have h1 : x % P = 0 := by omega
    refine ⟨h1, ?_⟩
    have h2 : P * (x / P % d) = 0 := by omega
    rcases Nat.mul_eq_zero.mp h2 with h3 | h3
    · subst h3
      simp at h1
      subst h1
      simp
    · exact h3
  · rintro ⟨h1, h2⟩
    rw [h1, h2]
    simp

theorem pos_of_mem_of_prod_pos {dims : List Nat} (h : 0 < dims.prod) :
    ∀ d ∈ dims, 0 < d := by
  intro d hd
  rcases Nat.eq_zero_or_pos d with h0 | h0
  · subst h0
    have := List.prod_eq_zero_iff.mpr hd
    omega
  · exact h0

/-! ## The walk of the multi-index -/

theorem length_unravelIndex (dims : List Nat) (k : Nat) :
    (unravelIndex dims k).length = dims.length := by
  induction dims with
  | nil => rfl
  | cons d dims ih => simp [unravelIndex, ih]

theorem unravelIndex_zero (dims : List Nat) :
    unravelIndex dims 0 = List.replicate dims.length 0 := by
  induction dims with
  | nil => rfl
  | cons d dims ih => simp [unravelIndex, ih, List.replicate_succ]

theorem IncreaseIndexInDimsCarry_unravelIndex (dims : List Nat)
    (hpos : ∀ d ∈ dims, 0 < d) (k : Nat) :
    math.utils.IncreaseIndexInDimsCarry dims (unravelIndex dims k) =
      (unravelIndex dims (k + 1), decide ((k + 1) % dims.prod = 0)) := by
  induction dims with
  | nil => simp [unravelIndex, math.utils.IncreaseIndexInDimsCarry, Nat.mod_one]
  | cons d dims ih =>
    have hd : 0 < d := hpos d (List.mem_cons_self _ _)
    have ih' := ih (fun x hx => hpos x (List.mem_cons_of_mem _ hx))
    simp only [unravelIndex, math.utils.IncreaseIndexInDimsCarry, ih', List.prod_cons]
    by_cases hc : (k + 1) % dims.prod = 0
    · have hq := succ_div_of_mod_eq_zero k dims.prod hc
      by_cases hw : k / dims.prod % d + 1 ≥ d
      · have h0 := succ_mod_wrap (k / dims.prod) d hd hw
        have hz : (k + 1) % (d * dims.prod) = 0 :=
          (mod_mul_eq_zero_iff _ _ _).mpr ⟨hc, by rw [hq]; exact h0⟩
        simp [hc, hw, hq, h0, hz]
      · have h1 := succ_mod_step (k / dims.prod) d (by omega)
        have hz : (k + 1) % (d * dims.prod) ≠ 0 := by
          intro h
          have := ((mod_mul_eq_zero_iff _ _ _).mp h).2
          rw [hq, h1] at this
          omega
        simp [hc, hw, hq, h1, hz]
    · have hq := succ_div_of_mod_ne_zero k dims.prod hc
      have hz : (k + 1) % (d * dims.prod) ≠ 0 := fun h =>
        hc ((mod_mul_eq_zero_iff _ _ _).mp h).1
      simp [hc, hq, hz]

theorem IncreaseIndexInDims_unravelIndex (n : Nat) (dims : List Nat)
    (hn : dims.length = n) (k : Nat) (hk : k < dims.prod) :
    math.utils.IncreaseIndexInDims n dims (unravelIndex dims k) =
      unravelIndex dims (k + 1) := by
  have hpos := pos_of_mem_of_prod_pos (Nat.lt_of_le_of_lt (Nat.zero_le k) hk)
  have h1 : dims.take n = dims := List.take_of_length_le (by omega)
  have h2 : (unravelIndex dims k).take n = unravelIndex dims k :=
    List.take_of_length_le (by rw [length_unravelIndex]; omega)
  have h3 : (unravelIndex dims k).drop n = [] :=
    List.drop_of_length_le (by rw [length_unravelIndex]; omega)
  rw [math.utils.IncreaseIndexInDims, h1, h2, h3,
    IncreaseIndexInDimsCarry_unravelIndex dims hpos k]
  simp

/-! ## The accumulation loop -/

theorem ComputeDivGradient_loop {α : Type} [Add α] [Neg α] [Mul α] [Div α]
    (A_dims B_dims C_dims : List Nat) (dC B C : Nat → α) (dA₀ dB₀ : Nat → α)
    (k : Nat) (hk : k ≤ C_dims.prod) :
    (List.range k).foldl
        (ComputeDivGradientBody C_dims.length A_dims B_dims C_dims dC B C)
        (dA₀, dB₀, unravelIndex C_dims 0) =
      (fun a => (((List.range k).filter
          (fun c => broadcastIndex A_dims C_dims c = a)).map
          (fun c => dC c / B (broadcastIndex B_dims C_dims c))).foldl (· + ·) (dA₀ a),
       fun b => (((List.range k).filter
          (fun c => broadcastIndex B_dims C_dims c = b)).map
          (fun c => -dC c * C c / B (broadcastIndex B_dims C_dims c))).foldl
            (· + ·) (dB₀ b),
       unravelIndex C_dims k) := by
  induction k with
  | zero => simp
  | succ k ih =>
    rw [List.range_succ, List.foldl_append, ih (by omega)]
    simp only [List.foldl_cons, List.foldl_nil, ComputeDivGradientBody]
    rw [IncreaseIndexInDims_unravelIndex C_dims.length C_dims rfl k (by omega)]
    refine Prod.ext ?_ (Prod.ext ?_ rfl)
    · funext a
      simp only [Function.update_apply, List.filter_append, List.map_append,
        List.foldl_append]
      by_cases h : a = broadcastIndex A_dims C_dims k
      · subst h
        simp [broadcastIndex]
      · have h' : ¬ broadcastIndex A_dims C_dims k = a := fun e => h e.symm
        simp [broadcastIndex] at h h' ⊢
        simp [h, h']
    · funext b
      simp only [Function.update_apply, List.filter_append, List.map_append,
        List.foldl_append]
      by_cases h : b = broadcastIndex B_dims C_dims k
      · subst h
        simp [broadcastIndex]
      · have h' : ¬ broadcastIndex B_dims C_dims k = b := fun e => h e.symm
        simp [broadcastIndex] at h h' ⊢
        simp [h, h']

theorem ComputeDivGradient_eq {α : Type} [Zero α] [Add α] [Neg α] [Mul α] [Div α]
    (ndim : Nat) (A_dims B_dims C_dims : List Nat) (hC : C_dims.length = ndim)
    (dC B C : Nat → α) (dA dB : Nat → α) :
    ComputeDivGradient ndim A_dims B_dims C_dims dC B C dA dB =
      (fun a => (((List.range C_dims.prod).filter
          (fun c => broadcastIndex A_dims C_dims c = a)).map
          (fun c => dC c / B (broadcastIndex B_dims C_dims c))).foldl (· + ·)
            (math.Set (A_dims.take ndim).prod 0 dA a),
       fun b => (((List.range C_dims.prod).filter
          (fun c => broadcastIndex B_dims C_dims c = b)).map
          (fun c => -dC c * C c / B (broadcastIndex B_dims C_dims c))).foldl
            (· + ·) (math.Set (B_dims.take ndim).prod 0 dB b)) := by
  subst hC
  have hz : List.replicate C_dims.length 0 = unravelIndex C_dims 0 :=
    (unravelIndex_zero C_dims).symm
  simp only [ComputeDivGradient, foldl_mul_one_eq_prod, List.take_length, hz]
  rw [ComputeDivGradient_loop A_dims B_dims C_dims dC B C _ _ C_dims.prod (Nat.le_refl _)]

theorem ComputeDivGradient_fst {α : Type} [Zero α] [Add α] [Neg α] [Mul α] [Div α]
    (ndim : Nat) (A_dims B_dims C_dims : List Nat) (hC : C_dims.length = ndim)
    (dC B C : Nat → α) (dA dB : Nat → α) (a : Nat)
    (ha : a < (A_dims.take ndim).prod) :
    (ComputeDivGradient ndim A_dims B_dims C_dims dC B C dA dB).1 a =
      sumInOrder (((List.range C_dims.prod).filter
        (fun c => broadcastIndex A_dims C_dims c = a)).map
        (fun c => dC c / B (broadcastIndex B_dims C_dims c))) := by
  rw [ComputeDivGradient_eq ndim A_dims B_dims C_dims hC]
  simp [math.Set, ha, sumInOrder]

theorem ComputeDivGradient_snd {α : Type} [Zero α] [Add α] [Neg α] [Mul α] [Div α]
    (ndim : Nat) (A_dims B_dims C_dims : List Nat) (hC : C_dims.length = ndim)
    (dC B C : Nat → α) (dA dB : Nat → α) (b : Nat)
    (hb : b < (B_dims.take ndim).prod) :
    (ComputeDivGradient ndim A_dims B_dims C_dims dC B C dA dB).2 b =
      sumInOrder (((List.range C_dims.prod).filter
        (fun c => broadcastIndex B_dims C_dims c = b)).map
        (fun c => -dC c * C c / B b)) := by
  rw [ComputeDivGradient_eq ndim A_dims B_dims C_dims hC]
  have hm : ((List.range C_dims.prod).filter
        (fun c => broadcastIndex B_dims C_dims c = b)).map
        (fun c => -dC c * C c / B (broadcastIndex B_dims C_dims c)) =
      ((List.range C_dims.prod).filter
        (fun c => broadcastIndex B_dims C_dims c = b)).map
        (fun c => -dC c * C c / B b) := by
    apply List.map_congr_left
    intro c hc
    have := (List.mem_filter.mp hc).2
    simp at this
    rw [this]
  simp only [hm]
  simp [math.Set, hb, sumInOrder]

/-! ## The shape resolver -/

theorem getElem?_padLeft (dims : List Nat) (n j : Nat) (hn : dims.length ≤ n)
    (hj : j < n) :
    (padLeft n dims)[n - 1 - j]? =
      if j < dims.length then dims.reverse[j]? else some 1 := by
  unfold padLeft
  by_cases h : j < dims.length
  · rw [if_pos h, List.getElem?_append_right (by simp; omega),
      List.getElem?_reverse h]
    congr 1
    simp
    omega
  · rw [if_neg h, List.getElem?_append_left (by simp; omega),
      List.getElem?_replicate, if_pos (by omega)]

theorem length_padLeft (dims : List Nat) (n : Nat) (hn : dims.length ≤ n) :
    (padLeft n dims).length = n := by
  simp [padLeft]
  omega

theorem all_zip_padLeft_iff (A_dims B_dims : List Nat) (n : Nat)
    (hA : A_dims.length ≤ n) (hB : B_dims.length ≤ n) :
    ((padLeft n A_dims).zip (padLeft n B_dims)).all
        (fun ab => ab.1 = ab.2 ∨ ab.1 = 1 ∨ ab.2 = 1) = true ↔
      BroadcastCompatible A_dims B_dims := by
  rw [List.all_eq_true]
  constructor
  · intro h p hp
    obtain ⟨j, hj⟩ := List.mem_iff_getElem?.mp hp
    obtain ⟨h1, h2⟩ := List.getElem?_zip_eq_some.mp hj
    obtain ⟨l1, _⟩ := List.getElem?_eq_some.mp h1
    obtain ⟨l2, _⟩ := List.getElem?_eq_some.mp h2
    simp only [List.length_reverse] at l1 l2
    have e1 := getElem?_padLeft A_dims n j hA (by omega)
    have e2 := getElem?_padLeft B_dims n j hB (by omega)
    rw [if_pos l1, h1] at e1
    rw [if_pos l2, h2] at e2
    have hm : p ∈ (padLeft n A_dims).zip (padLeft n B_dims) :=
      List.mem_iff_getElem?.mpr ⟨n - 1 - j, List.getElem?_zip_eq_some.mpr ⟨e1, e2⟩⟩
    simpa using h p hm
  · intro h x hx
    obtain ⟨i, hi⟩ := List.mem_iff_getElem?.mp hx
    obtain ⟨h1, h2⟩ := List.getElem?_zip_eq_some.mp hi
    obtain ⟨l1, _⟩ := List.getElem?_eq_some.mp h1
    rw [length_padLeft A_dims n hA] at l1
    have hi' : n - 1 - (n - 1 - i) = i := by omega
    have e1 := getElem?_padLeft A_dims n (n - 1 - i) hA (by omega)
    have e2 := getElem?_padLeft B_dims n (n - 1 - i) hB (by omega)
    rw [hi', h1] at e1
    rw [hi', h2] at e2
    by_cases c1 : n - 1 - i < A_dims.length
    · by_cases c2 : n - 1 - i < B_dims.length
      · rw [if_pos c1] at e1
        rw [if_pos c2] at e2
        have hm : x ∈ A_dims.reverse.zip B_dims.reverse :=
          List.mem_iff_getElem?.mpr
            ⟨n - 1 - i, List.getElem?_zip_eq_some.mpr ⟨e1.symm, e2.symm⟩⟩
        simpa using h x hm
      · rw [if_neg c2] at e2
        have : x.2 = 1 := by simpa using e2
        simp [this]
    · rw [if_neg c1] at e1
      have : x.1 = 1 := by simpa using e1
      simp [this]

theorem ComputeBroadcastBinaryOpDims_eq (A_dims B_dims : List Nat) :
    math.utils.ComputeBroadcastBinaryOpDims A_dims.length A_dims
        B_dims.length B_dims =
      if BroadcastCompatible A_dims B_dims then
        .ok (padLeft (max A_dims.length B_dims.length) A_dims,
          padLeft (max A_dims.length B_dims.length) B_dims,
          List.zipWith max (padLeft (max A_dims.length B_dims.length) A_dims)
            (padLeft (max A_dims.length B_dims.length) B_dims))
      else .error Error.IncompatibleShapeError := by
  have h := all_zip_padLeft_iff A_dims B_dims (max A_dims.length B_dims.length)
    (Nat.le_max_left _ _) (Nat.le_max_right _ _)
  simp only [padLeft] at h
  simp only [math.utils.ComputeBroadcastBinaryOpDims, List.take_length, padLeft]
  by_cases hc : BroadcastCompatible A_dims B_dims
  · rw [if_pos hc, if_pos (h.mpr hc)]
  · rw [if_neg hc, if_neg (fun e => hc (h.mp e))]

theorem ComputeBroadcastBinaryOpDims_ok {A_dims B_dims A_b B_b C_b : List Nat}
    (h : math.utils.ComputeBroadcastBinaryOpDims A_dims.length A_dims
      B_dims.length B_dims = .ok (A_b, B_b, C_b)) :
    A_b = List.replicate (max A_dims.length B_dims.length - A_dims.length) 1 ++ A_dims ∧
    B_b = List.replicate (max A_dims.length B_dims.length - B_dims.length) 1 ++ B_dims ∧
    C_b = List.zipWith max A_b B_b := by
  simp only [math.utils.ComputeBroadcastBinaryOpDims, List.take_length] at h
  split at h
  · simp only [Except.ok.injEq, Prod.mk.injEq] at h
    obtain ⟨h1, h2, h3⟩ := h
    subst h1 h2
    exact ⟨rfl, rfl, h3.symm⟩
  · cases h

theorem ComputeBroadcastBinaryOpDims_length {A_dims B_dims A_b B_b C_b : List Nat}
    (h : math.utils.ComputeBroadcastBinaryOpDims A_dims.length A_dims
      B_dims.length B_dims = .ok (A_b, B_b, C_b)) :
    A_b.length = max A_dims.length B_dims.length ∧
    B_b.length = max A_dims.length B_dims.length ∧
    C_b.length = max A_dims.length B_dims.length := by
  obtain ⟨h1, h2, h3⟩ := ComputeBroadcastBinaryOpDims_ok h
  have l1 : A_b.length = max A_dims.length B_dims.length := by
    rw [h1]; simp
  have l2 : B_b.length = max A_dims.length B_dims.length := by
    rw [h2]; simp
  refine ⟨l1, l2, ?_⟩
  rw [h3, List.length_zipWith, l1, l2]
  simp

theorem Backward_general {α : Type} [Zero α] [Add α] [Neg α] [Mul α] [Div α]
    {A_dims B_dims A_b B_b C_b : List Nat} (hne : A_dims ≠ B_dims)
    (h : math.utils.ComputeBroadcastBinaryOpDims A_dims.length A_dims
      B_dims.length B_dims = .ok (A_b, B_b, C_b))
    (dC A B C dA dB : Nat → α) :
    DivFunctor.Backward A_dims B_dims dC A B C dA dB =
      .ok (true,
        (ComputeDivGradient (max A_dims.length B_dims.length) A_b B_b C_b
          dC B C dA dB).1,
        (ComputeDivGradient (max A_dims.length B_dims.length) A_b B_b C_b
          dC B C dA dB).2) := by
  simp only [DivFunctor.Backward, if_neg hne, h]

theorem prod_padLeft (dims : List Nat) (n : Nat) : (padLeft n dims).prod = dims.prod := by
  simp [padLeft, List.prod_append, List.prod_replicate]

theorem eq_of_mem_zip_self (l : List Nat) (p : Nat × Nat) (hp : p ∈ l.zip l) :
    p.1 = p.2 := by
  obtain ⟨j, hj⟩ := List.mem_iff_getElem?.mp hp
  obtain ⟨h1, h2⟩ := List.getElem?_zip_eq_some.mp hj
  rw [h1] at h2
  exact Option.some.inj h2

theorem Backward_of_incompatible {α : Type} [Zero α] [Add α] [Neg α] [Mul α] [Div α]
    {A_dims B_dims : List Nat} (hne : A_dims ≠ B_dims)
    (hc : ¬ BroadcastCompatible A_dims B_dims) (dC A B C dA dB : Nat → α) :
    DivFunctor.Backward A_dims B_dims dC A B C dA dB =
      .error Error.IncompatibleShapeError := by
  simp only [DivFunctor.Backward, if_neg hne, ComputeBroadcastBinaryOpDims_eq,
    if_neg hc]

theorem Backward_of_compatible {α : Type} [Zero α] [Add α] [Neg α] [Mul α] [Div α]
    {A_dims B_dims : List Nat} (hne : A_dims ≠ B_dims)
    (hc : BroadcastCompatible A_dims B_dims) (dC A B C dA dB : Nat → α) :
    DivFunctor.Backward A_dims B_dims dC A B C dA dB =
      .ok (true,
        (ComputeDivGradient (max A_dims.length B_dims.length)
          (padLeft (max A_dims.length B_dims.length) A_dims)
          (padLeft (max A_dims.length B_dims.length) B_dims)
          (List.zipWith max (padLeft (max A_dims.length B_dims.length) A_dims)
            (padLeft (max A_dims.length B_dims.length) B_dims))
          dC B C dA dB).1,
        (ComputeDivGradient (max A_dims.length B_dims.length)
          (padLeft (max A_dims.length B_dims.length) A_dims)
          (padLeft (max A_dims.length B_dims.length) B_dims)
          (List.zipWith max (padLeft (max A_dims.length B_dims.length) A_dims)
            (padLeft (max A_dims.length B_dims.length) B_dims))
          dC B C dA dB).2) :=
  Backward_general hne
    (by rw [ComputeBroadcastBinaryOpDims_eq, if_pos hc]) dC A B C dA dB

/-! ## Equal shapes: the flat index is its own image -/

theorem foldl_GetIndexFromDims_unravelIndex (dims : List Nat) (k acc : Nat) :
    (dims.zip (unravelIndex dims k)).foldl
        (fun sum di => if di.1 = 1 then sum else sum * di.1 + di.2) acc =
      acc * dims.prod + k % dims.prod := by
  induction dims generalizing acc with
  | nil => simp [unravelIndex, Nat.mod_one]
  | cons d dims ih =>
    simp only [unravelIndex, List.zip_cons_cons, List.foldl_cons, ih, List.prod_cons]
    rw [Nat.mul_comm d dims.prod, Nat.mod_mul]
    by_cases hd : d = 1
    · subst hd
      simp [Nat.mod_one]
    · rw [if_neg hd]
      ring

theorem broadcastIndex_self (dims : List Nat) (c : Nat) (hc : c < dims.prod) :
    broadcastIndex dims dims c = c := by
  have h1 : dims.take dims.length = dims := List.take_length dims
  have h2 : (unravelIndex dims c).take dims.length = unravelIndex dims c :=
    List.take_of_length_le (by rw [length_unravelIndex])
  rw [broadcastIndex, math.utils.GetIndexFromDims, h1, h2,
    foldl_GetIndexFromDims_unravelIndex, Nat.mod_eq_of_lt hc]
  simp

theorem filter_range_eq (n a : Nat) :
    (List.range n).filter (fun c => c = a) = if a < n then [a] else [] := by
  induction n with
  | zero => simp
  | succ n ih =>
    rw [List.range_succ, List.filter_append, ih, List.filter_singleton]
    by_cases h1 : a < n
    · have h2 : n ≠ a := by omega
      have h3 : a < n + 1 := by omega
      simp [h1, h2, h3]
    · by_cases h2 : n = a
      · subst h2
        simp
      · have h3 : ¬ a < n + 1 := by omega
        simp [h1, h2, h3]

theorem filter_broadcastIndex_self (dims : List Nat) (a : Nat) :
    (List.range dims.prod).filter (fun c => broadcastIndex dims dims c = a) =
      if a < dims.prod then [a] else [] := by
  rw [← filter_range_eq]
  apply List.filter_congr
  intro c hc
  rw [broadcastIndex_self dims c (List.mem_range.mp hc)]

theorem sumInOrder_eq_sum {α : Type} [AddMonoid α] (ts : List α) :
    sumInOrder ts = ts.sum := by
  rw [sumInOrder, List.sum_eq_foldl]

theorem sumInOrder_eq_finset_sum {α : Type} [AddCommMonoid α] (n : Nat)
    (p : Nat → Bool) (f : Nat → α) :
    sumInOrder (((List.range n).filter p).map f) =
      ∑ c in (Finset.range n).filter (fun c => p c = true), f c := by
  rw [sumInOrder_eq_sum, ← List.sum_toFinset f ((List.nodup_range n).filter _)]
  congr 1
  ext c
  simp

theorem ComputeDivGradient_equal_shapes {α : Type} [Zero α] [Add α] [Neg α] [Mul α]
    [Div α] (S : List Nat) (dC B C dA dB : Nat → α) (i : Nat) (hi : i < S.prod) :
    (ComputeDivGradient S.length S S S dC B C dA dB).1 i = 0 + dC i / B i ∧
    (ComputeDivGradient S.length S S S dC B C dA dB).2 i = 0 + -dC i * C i / B i := by
  have hi' : i < (S.take S.length).prod := by
    rw [List.take_length]
    exact hi
  rw [ComputeDivGradient_fst S.length S S S rfl dC B C dA dB i hi',
    ComputeDivGradient_snd S.length S S S rfl dC B C dA dB i hi',
    filter_broadcastIndex_self, if_pos hi]
  simp [sumInOrder, broadcastIndex_self S i hi]

/-! ## The index mapping in closed form -/

theorem strideOffset_cons (d : Nat) (dims : List Nat) (i : Nat) (idx : List Nat) :
    strideOffset (d :: dims) (i :: idx) =
      dims.prod * (if d = 1 then 0 else i) + strideOffset dims idx := by
  simp only [strideOffset, List.length_cons, List.range_succ_eq_map, List.map_cons,
    List.sum_cons, List.map_map]
  congr 1

theorem foldl_GetIndexFromDims_eq (dims idx : List Nat) (h : dims.length = idx.length)
    (acc : Nat) :
    (dims.zip idx).foldl
        (fun sum di => if di.1 = 1 then sum else sum * di.1 + di.2) acc =
      acc * dims.prod + strideOffset dims idx := by
  induction dims generalizing idx acc with
  | nil => simp [strideOffset]
  | cons d dims ih =>
    cases idx with
    | nil => simp at h
    | cons i idx =>
      have h' : dims.length = idx.length := by simpa using h
      simp only [List.zip_cons_cons, List.foldl_cons, ih idx h', strideOffset_cons,
        List.prod_cons]
      by_cases hd : d = 1
      · subst hd
        simp
      · simp only [if_neg hd]
        ring

theorem GetIndexFromDims_eq_strideOffset (n : Nat) (dims idx : List Nat)
    (hd : dims.length = n) (hi : idx.length = n) :
    math.utils.GetIndexFromDims n dims idx = strideOffset dims idx := by
  rw [math.utils.GetIndexFromDims, List.take_of_length_le (by omega),
    List.take_of_length_le (by omega),
    foldl_GetIndexFromDims_eq dims idx (by omega)]
  simp

/-! ## Positions of the output space -/

theorem unravelIndex_add_mul (dims : List Nat) (k m : Nat) :
    unravelIndex dims (k + dims.prod * m) = unravelIndex dims k := by
  induction dims generalizing m with
  | nil => rfl
  | cons d dims ih =>
    have e : k + (d :: dims).prod * m = k + dims.prod * (d * m) := by
      rw [List.prod_cons]
      ring
    rw [e]
    simp only [unravelIndex, ih]
    congr 1
    rcases Nat.eq_zero_or_pos dims.prod with h0 | hpos
    · rw [h0]
      simp
    · rw [Nat.add_mul_div_left k (d * m) hpos, Nat.add_mul_mod_self_left]

theorem unravelIndex_lt (dims : List Nat) (hpos : ∀ d ∈ dims, 0 < d) (k : Nat) :
    List.Forall₂ (· < ·) (unravelIndex dims k) dims := by
  induction dims with
  | nil => exact List.Forall₂.nil
  | cons d dims ih =>
    exact List.Forall₂.cons (Nat.mod_lt _ (hpos d (List.mem_cons_self _ _)))
      (ih (fun x hx => hpos x (List.mem_cons_of_mem _ hx)))

theorem strideOffset_of_lt {idx dims : List Nat} (h : List.Forall₂ (· < ·) idx dims) :
    strideOffset dims idx < dims.prod ∧
      unravelIndex dims (strideOffset dims idx) = idx := by
  induction h with
  | nil => simp [strideOffset, unravelIndex]
  | @cons i d idx dims hid _ ih =>
    obtain ⟨hlt, hun⟩ := ih
    have hc : (if d = 1 then 0 else i) = i := by
      by_cases hd : d = 1
      · subst hd
        simp
        omega
      · simp [hd]
    have hP : 0 < dims.prod := by omega
    rw [strideOffset_cons, hc, List.prod_cons]
    constructor
    · calc dims.prod * i + strideOffset dims idx
          < dims.prod * i + dims.prod := by omega
        _ = dims.prod * (i + 1) := by ring
        _ ≤ dims.prod * d := Nat.mul_le_mul_left _ hid
        _ = d * dims.prod := Nat.mul_comm _ _
    · simp only [unravelIndex]
      have e1 : (dims.prod * i + strideOffset dims idx) / dims.prod = i := by
        rw [Nat.mul_add_div hP, Nat.div_eq_of_lt hlt]
        simp
      have e2 : unravelIndex dims (dims.prod * i + strideOffset dims idx) = idx := by
        rw [Nat.add_comm, unravelIndex_add_mul, hun]
      rw [e1, e2, Nat.mod_eq_of_lt hid]

theorem unravelIndex_injOn (dims : List Nat) (k₁ k₂ : Nat) (h₁ : k₁ < dims.prod)
    (h₂ : k₂ < dims.prod) (h : unravelIndex dims k₁ = unravelIndex dims k₂) :
    k₁ = k₂ := by
  have e₁ := broadcastIndex_self dims k₁ h₁
  have e₂ := broadcastIndex_self dims k₂ h₂
  rw [broadcastIndex] at e₁ e₂
  rw [← e₁, ← e₂, h]

/-! ## Indices within the buffers when no size is zero -/

theorem strideOffset_lt_prod {dims idx : List Nat}
    (h : List.Forall₂ (fun d i => d = 1 ∨ i < d) dims idx) :
    strideOffset dims idx < dims.prod := by
  induction h with
  | nil => simp [strideOffset]
  | @cons d i dims idx hdi _ ih =>
    have hc : (if d = 1 then 0 else i) < d := by
      by_cases hd : d = 1
      · simp [hd]
      · rcases hdi with h1 | h1
        · exact absurd h1 hd
        · simpa [hd] using h1
    rw [strideOffset_cons, List.prod_cons]
    calc dims.prod * (if d = 1 then 0 else i) + strideOffset dims idx
        < dims.prod * (if d = 1 then 0 else i) + dims.prod := by omega
      _ = dims.prod * ((if d = 1 then 0 else i) + 1) := by ring
      _ ≤ dims.prod * d := Nat.mul_le_mul_left _ hc
      _ = d * dims.prod := Nat.mul_comm _ _

theorem unravelIndex_zipWith_max_clamped {A_b B_b : List Nat}
    (h : List.Forall₂ (fun a b => 0 < a ∧ 0 < b ∧ (a = b ∨ a = 1 ∨ b = 1)) A_b B_b)
    (c : Nat) :
    List.Forall₂ (fun d i => d = 1 ∨ i < d) A_b
        (unravelIndex (List.zipWith max A_b B_b) c) ∧
      List.Forall₂ (fun d i => d = 1 ∨ i < d) B_b
        (unravelIndex (List.zipWith max A_b B_b) c) := by
  induction h with
  | nil => exact ⟨List.Forall₂.nil, List.Forall₂.nil⟩
  | @cons a b A_b B_b hab _ ih =>
    obtain ⟨ha, hb, hcomp⟩ := hab
    simp only [List.zipWith_cons_cons, unravelIndex]
    have hm : 0 < max a b := by omega
    have hlt := Nat.mod_lt (c / (List.zipWith max A_b B_b).prod) hm
    refine ⟨List.Forall₂.cons ?_ ih.1, List.Forall₂.cons ?_ ih.2⟩
    · by_cases h1 : a = 1
      · exact Or.inl h1
      · have hmax : max a b = a := by omega
        exact Or.inr (lt_of_lt_of_eq hlt hmax)
    · by_cases h1 : b = 1
      · exact Or.inl h1
      · have hmax : max a b = b := by omega
        exact Or.inr (lt_of_lt_of_eq hlt hmax)

theorem forall₂_padLeft_of_compatible (A_dims B_dims : List Nat)
    (hc : BroadcastCompatible A_dims B_dims)
    (hA : ∀ d ∈ A_dims, 0 < d) (hB : ∀ d ∈ B_dims, 0 < d) :
    List.Forall₂ (fun a b => 0 < a ∧ 0 < b ∧ (a = b ∨ a = 1 ∨ b = 1))
      (padLeft (max A_dims.length B_dims.length) A_dims)
      (padLeft (max A_dims.length B_dims.length) B_dims) := by
  have hall := (all_zip_padLeft_iff A_dims B_dims (max A_dims.length B_dims.length)
    (Nat.le_max_left _ _) (Nat.le_max_right _ _)).mpr hc
  rw [List.all_eq_true] at hall
  have hpos : ∀ (dims : List Nat) (n : Nat), (∀ d ∈ dims, 0 < d) →
      ∀ d ∈ padLeft n dims, 0 < d := by
    intro dims n hd d hmem
    rcases List.mem_append.mp hmem with h1 | h1
    · rw [(List.mem_replicate.mp h1).2]
      exact Nat.one_pos
    · exact hd d h1
  rw [List.forall₂_iff_zip]
  refine ⟨by rw [length_padLeft _ _ (Nat.le_max_left _ _),
    length_padLeft _ _ (Nat.le_max_right _ _)], ?_⟩
  intro a b hab
  obtain ⟨h1, h2⟩ := List.of_mem_zip hab
  exact ⟨hpos A_dims _ hA a h1, hpos B_dims _ hB b h2, by simpa using hall (a, b) hab⟩

theorem broadcastIndex_lt_of_pos (A_dims B_dims : List Nat)
    (hc : BroadcastCompatible A_dims B_dims)
    (hA : ∀ d ∈ A_dims, 0 < d) (hB : ∀ d ∈ B_dims, 0 < d) (c : Nat) :
    broadcastIndex (padLeft (max A_dims.length B_dims.length) A_dims)
        (List.zipWith max (padLeft (max A_dims.length B_dims.length) A_dims)
          (padLeft (max A_dims.length B_dims.length) B_dims)) c < A_dims.prod ∧
      broadcastIndex (padLeft (max A_dims.length B_dims.length) B_dims)
        (List.zipWith max (padLeft (max A_dims.length B_dims.length) A_dims)
          (padLeft (max A_dims.length B_dims.length) B_dims)) c < B_dims.prod := by
  have lA := length_padLeft A_dims _ (Nat.le_max_left A_dims.length B_dims.length)
  have lB := length_padLeft B_dims _ (Nat.le_max_right A_dims.length B_dims.length)
  have lC : (List.zipWith max (padLeft (max A_dims.length B_dims.length) A_dims)
      (padLeft (max A_dims.length B_dims.length) B_dims)).length =
      max A_dims.length B_dims.length := by
    rw [List.length_zipWith, lA, lB]
    simp
  obtain ⟨h1, h2⟩ := unravelIndex_zipWith_max_clamped
    (forall₂_padLeft_of_compatible A_dims B_dims hc hA hB) c
  have b1 := strideOffset_lt_prod h1
  have b2 := strideOffset_lt_prod h2
  rw [prod_padLeft] at b1 b2
  simp only [broadcastIndex, lC]
  rw [GetIndexFromDims_eq_strideOffset _ _ _ lA (by rw [length_unravelIndex, lC]),
    GetIndexFromDims_eq_strideOffset _ _ _ lB (by rw [length_unravelIndex, lC])]
  exact ⟨b1, b2⟩

/-! ## Indices within the buffers when every input size is 1 or the output size -/

theorem zipWith_max_self (l : List Nat) : List.zipWith max l l = l := by
  induction l with
  | nil => rfl
  | cons d l ih => simp [ih]

theorem BroadcastCompatible_of_padLeft_eq (A_dims B_dims : List Nat)
    (h : padLeft (max A_dims.length B_dims.length) A_dims =
      padLeft (max A_dims.length B_dims.length) B_dims) :
    BroadcastCompatible A_dims B_dims := by
  rw [← all_zip_padLeft_iff A_dims B_dims (max A_dims.length B_dims.length)
    (Nat.le_max_left _ _) (Nat.le_max_right _ _), h, List.all_eq_true]
  intro x hx
  simp [eq_of_mem_zip_self _ x hx]

/-! ## Sums of terms that depend linearly on a parameter -/

theorem sumInOrder_map_add {α : Type} [Field α] (l : List Nat) (f g : Nat → α) :
    sumInOrder (l.map (fun c => f c + g c)) =
      sumInOrder (l.map f) + sumInOrder (l.map g) := by
  simp only [sumInOrder_eq_sum, List.sum_map_add]

theorem sumInOrder_map_mul_left {α : Type} [Field α] (l : List Nat) (f : Nat → α)
    (k : α) :
    sumInOrder (l.map (fun c => k * f c)) = k * sumInOrder (l.map f) := by
  simp only [sumInOrder_eq_sum, List.sum_map_mul_left]

theorem sumInOrder_map_zero {α : Type} [AddMonoid α] (l : List Nat) :
    sumInOrder (l.map (fun _ => (0 : α))) = 0 := by
  simp only [sumInOrder_eq_sum, List.sum_map_zero]

/-! ## Equal shapes in an arithmetic where zero is a left identity -/

theorem Backward_eq_ComputeDivGradient_of_zero_add {α : Type} [Zero α] [Add α] [Neg α]
    [Mul α] [Div α] (hz : ∀ x : α, 0 + x = x) (S : List Nat)
    (dC A B C dA dB : Nat → α) :
    DivFunctor.Backward S S dC A B C dA dB =
      .ok (true, ComputeDivGradient S.length S S S dC B C dA dB) := by
  rw [ComputeDivGradient_eq S.length S S S rfl]
  simp only [DivFunctor.Backward, if_true, filter_broadcastIndex_self,
    foldl_mul_one_eq_prod, List.take_length]
  congr 2
  refine Prod.ext ?_ ?_
  · funext a
    by_cases h : a < S.prod
    · simp [math.Div, math.Set, h, broadcastIndex_self S a h, hz]
    · simp [math.Div, math.Set, h]
  · funext b
    by_cases h : b < S.prod
    · simp [math.Set, h, broadcastIndex_self S b h, hz]
    · simp [math.Set, h]

theorem IeeeValue.zero_add_cases (x : IeeeValue) :
    0 + x = x ∨ x = IeeeValue.zero true := by
  cases x with
  | nan => exact Or.inl rfl
  | inf s => exact Or.inl rfl
  | zero s =>
    cases s
    · exact Or.inl rfl
    · exact Or.inr rfl
  | finite q => exact Or.inl rfl

/-! ## The derivative of a quotient -/

theorem hasDerivAt_div_left (b x : ℝ) : HasDerivAt (fun a : ℝ => a / b) (1 / b) x := by
  simpa using (hasDerivAt_id x).div_const b

theorem hasDerivAt_div_right (a x : ℝ) (hx : x ≠ 0) :
    HasDerivAt (fun b : ℝ => a / b) (-a / x ^ 2) x := by
  have h := (hasDerivAt_inv hx).const_mul a
  have e : (fun b : ℝ => a / b) = fun b => a * b⁻¹ := by
    funext b
    rw [div_eq_mul_inv]
  rw [e]
  convert h using 1
  ring

/-! ## The properties of the operator -/

/-- C1. Fast path of `Backward`: on equal shapes `S` the call succeeds and leaves
`dA[i] = dC[i] / B[i]` and `dB[i] = (-dC[i] * C[i]) / B[i]` at every flat index
`i` below the product of `S`. -/
theorem Backward_fast_path {α : Type} [Zero α] [Add α] [Neg α] [Mul α] [Div α]
    (S : List Nat) (dC A B C dA dB : Nat → α) :
    ∃ dA' dB' : Nat → α,
      DivFunctor.Backward S S dC A B C dA dB = .ok (true, dA', dB') ∧
      ∀ i, i < S.prod → dA' i = dC i / B i ∧ dB' i = -dC i * C i / B i := by
  refine ⟨_, _, by simp only [DivFunctor.Backward, if_true]; rfl, ?_⟩
  intro i hi
  simp [math.Div, foldl_mul_one_eq_prod, hi]

/-- C2. General path, gradient of the numerator: for unequal shapes that the
resolver normalizes to `A_b`, `B_b`, `C_b`, `Backward` succeeds and every `dA[a]`
with `a` below the product of `A_b` is the sum, over the flat output indices `c`
below the product of `C_b` that map to `a`, taken in increasing order from zero,
of `dC[c] / B[b(c)]`. -/
theorem Backward_broadcast_dA {α : Type} [Zero α] [Add α] [Neg α] [Mul α] [Div α]
    (A_dims B_dims A_b B_b C_b : List Nat) (hne : A_dims ≠ B_dims)
    (hres : math.utils.ComputeBroadcastBinaryOpDims A_dims.length A_dims
      B_dims.length B_dims = .ok (A_b, B_b, C_b))
    (dC A B C dA dB : Nat → α) :
    ∃ dA' dB' : Nat → α,
      DivFunctor.Backward A_dims B_dims dC A B C dA dB = .ok (true, dA', dB') ∧
      ∀ a, a < A_b.prod → dA' a =
        sumInOrder (((List.range C_b.prod).filter
          (fun c => broadcastIndex A_b C_b c = a)).map
          (fun c => dC c / B (broadcastIndex B_b C_b c))) := by
  obtain ⟨lA, _, lC⟩ := ComputeBroadcastBinaryOpDims_length hres
  refine ⟨_, _, Backward_general hne hres dC A B C dA dB, ?_⟩
  intro a ha
  apply ComputeDivGradient_fst _ _ _ _ lC
  rw [List.take_of_length_le (by omega)]
  exact ha

/-- C3. General path, gradient of the denominator: under the same preconditions
every `dB[b]` with `b` below the product of `B_b` is the sum, over the flat
output indices `c` below the product of `C_b` that map to `b`, taken in
increasing order from zero, of `(-dC[c] * C[c]) / B[b]`. -/
theorem Backward_broadcast_dB {α : Type} [Zero α] [Add α] [Neg α] [Mul α] [Div α]
    (A_dims B_dims A_b B_b C_b : List Nat) (hne : A_dims ≠ B_dims)
    (hres : math.utils.ComputeBroadcastBinaryOpDims A_dims.length A_dims
      B_dims.length B_dims = .ok (A_b, B_b, C_b))
    (dC A B C dA dB : Nat → α) :
    ∃ dA' dB' : Nat → α,
      DivFunctor.Backward A_dims B_dims dC A B C dA dB = .ok (true, dA', dB') ∧
      ∀ b, b < B_b.prod → dB' b =
        sumInOrder (((List.range C_b.prod).filter
          (fun c => broadcastIndex B_b C_b c = b)).map
          (fun c => -dC c * C c / B b)) := by
  obtain ⟨_, lB, lC⟩ := ComputeBroadcastBinaryOpDims_length hres
  refine ⟨_, _, Backward_general hne hres dC A B C dA dB, ?_⟩
  intro b hb
  apply ComputeDivGradient_snd _ _ _ _ lC
  rw [List.take_of_length_le (by omega)]
  exact hb

/-- C2, at a concrete input: shapes `[2, 1]` and `[2, 3]` over the integers. -/
theorem Backward_broadcast_dA_witness :
    ([2, 1] : List Nat) ≠ [2, 3] ∧
    math.utils.ComputeBroadcastBinaryOpDims [2, 1].length [2, 1] [2, 3].length [2, 3] =
      .ok ([2, 1], [2, 3], [2, 3]) ∧
    ∃ dA' dB' : Nat → Int,
      DivFunctor.Backward [2, 1] [2, 3] sampleDC (fun _ => 0) sampleB sampleC
        (fun _ => 7) (fun _ => 9) = .ok (true, dA', dB') ∧
      ∀ a, a < [2, 1].prod → dA' a =
        sumInOrder (((List.range [2, 3].prod).filter
          (fun c => broadcastIndex [2, 1] [2, 3] c = a)).map
          (fun c => sampleDC c / sampleB (broadcastIndex [2, 3] [2, 3] c))) :=
  ⟨by decide, rfl,
    Backward_broadcast_dA [2, 1] [2, 3] [2, 1] [2, 3] [2, 3] (by decide) rfl
      sampleDC (fun _ => 0) sampleB sampleC (fun _ => 7) (fun _ => 9)⟩

/-- C3, at a concrete input: shapes `[2, 3]` and `[1, 3]` over the integers. -/
theorem Backward_broadcast_dB_witness :
    ([2, 3] : List Nat) ≠ [1, 3] ∧
    math.utils.ComputeBroadcastBinaryOpDims [2, 3].length [2, 3] [1, 3].length [1, 3] =
      .ok ([2, 3], [1, 3], [2, 3]) ∧
    ∃ dA' dB' : Nat → Int,
      DivFunctor.Backward [2, 3] [1, 3] sampleDC (fun _ => 0) sampleB sampleC
        (fun _ => 7) (fun _ => 9) = .ok (true, dA', dB') ∧
      ∀ b, b < [1, 3].prod → dB' b =
        sumInOrder (((List.range [2, 3].prod).filter
          (fun c => broadcastIndex [1, 3] [2, 3] c = b)).map
          (fun c => -sampleDC c * sampleC c / sampleB b)) :=
  ⟨by decide, rfl,
    Backward_broadcast_dB [2, 3] [1, 3] [2, 3] [1, 3] [2, 3] (by decide) rfl
      sampleDC (fun _ => 0) sampleB sampleC (fun _ => 7) (fun _ => 9)⟩

/-- C4. The worked example: `A = [[2],[4],[6]]`, `B = [[1,2,1,1],[2,2,2,2],[3,3,3,3]]`,
`C = A / B` broadcast and `dC` all ones give `dA = [7/2, 2, 4/3]` and
`dB[c] = -C[c] / B[c]` at each of the 12 positions, whatever `dA` and `dB` held
before. -/
theorem Backward_worked_example (dA dB : Nat → ℚ) :
    ∃ dA' dB' : Nat → ℚ,
      DivFunctor.Backward [3, 1] [3, 4] exampleDC exampleA exampleB exampleC dA dB =
        .ok (true, dA', dB') ∧
      readBuffer dA' 3 = [7 / 2, 2, 4 / 3] ∧
      ∀ c, c < 12 → dB' c = -exampleC c / exampleB c := by
  have hres : math.utils.ComputeBroadcastBinaryOpDims [3, 1].length [3, 1]
      [3, 4].length [3, 4] = .ok ([3, 1], [3, 4], [3, 4]) := rfl
  refine ⟨_, _, Backward_general (by decide) hres _ _ _ _ _ _, ?_, ?_⟩
  · have f0 : (List.range [3, 4].prod).filter
        (fun c => broadcastIndex [3, 1] [3, 4] c = 0) = [0, 1, 2, 3] := by decide
    have f1 : (List.range [3, 4].prod).filter
        (fun c => broadcastIndex [3, 1] [3, 4] c = 1) = [4, 5, 6, 7] := by decide
    have f2 : (List.range [3, 4].prod).filter
        (fun c => broadcastIndex [3, 1] [3, 4] c = 2) = [8, 9, 10, 11] := by decide
    have r3 : List.range 3 = [0, 1, 2] := by decide
    have hb : ∀ c, c < 12 → broadcastIndex [3, 4] [3, 4] c = c := fun c hc =>
      broadcastIndex_self [3, 4] c (by simpa using hc)
    simp only [readBuffer, r3, List.map]
    rw [ComputeDivGradient_fst (max [3, 1].length [3, 4].length) [3, 1] [3, 4] [3, 4] rfl _ _ _ _ _ 0 (by decide),
      ComputeDivGradient_fst (max [3, 1].length [3, 4].length) [3, 1] [3, 4] [3, 4] rfl _ _ _ _ _ 1 (by decide),
      ComputeDivGradient_fst (max [3, 1].length [3, 4].length) [3, 1] [3, 4] [3, 4] rfl _ _ _ _ _ 2 (by decide),
      f0, f1, f2]
    simp only [List.map, sumInOrder, List.foldl, hb 0 (by decide), hb 1 (by decide),
      hb 2 (by decide), hb 3 (by decide), hb 4 (by decide), hb 5 (by decide),
      hb 6 (by decide), hb 7 (by decide), hb 8 (by decide), hb 9 (by decide),
      hb 10 (by decide), hb 11 (by decide)]
    simp [exampleDC, exampleB, bufferOf]
    norm_num
  · intro c hc
    have hb : broadcastIndex [3, 4] [3, 4] c = c :=
      broadcastIndex_self [3, 4] c (by simpa using hc)
    have hc' : c < [3, 4].prod := by simpa using hc
    rw [ComputeDivGradient_snd (max [3, 1].length [3, 4].length) [3, 1] [3, 4] [3, 4] rfl _ _ _ _ _ c hc',
      filter_broadcastIndex_self, if_pos hc']
    have hd : exampleDC c = 1 := by
      interval_cases c <;> simp [exampleDC, bufferOf]
    simp [sumInOrder, hd]

/-- C5, as amended. On equal shapes the general kernel is the fast path up to one
addition to zero: `Backward` on `(S, S)` succeeds, and `ComputeDivGradient` run
with all three dimension arrays equal to `S` leaves `0 + x` wherever the fast path
leaves `x`, at every index below the product of `S`, and the same contents
above; so the two agree exactly in every arithmetic where `0 + x = x`. -/
theorem fast_path_vs_general_path {α : Type} [Zero α] [Add α] [Neg α] [Mul α] [Div α]
    (S : List Nat) (dC A B C dA dB : Nat → α) :
    ∃ dA' dB' : Nat → α,
      DivFunctor.Backward S S dC A B C dA dB = .ok (true, dA', dB') ∧
      (∀ i, i < S.prod →
        (ComputeDivGradient S.length S S S dC B C dA dB).1 i = 0 + dA' i ∧
        (ComputeDivGradient S.length S S S dC B C dA dB).2 i = 0 + dB' i) ∧
      (∀ i, S.prod ≤ i →
        (ComputeDivGradient S.length S S S dC B C dA dB).1 i = dA' i ∧
        (ComputeDivGradient S.length S S S dC B C dA dB).2 i = dB' i) ∧
      ((∀ x : α, 0 + x = x) →
        DivFunctor.Backward S S dC A B C dA dB =
          .ok (true, ComputeDivGradient S.length S S S dC B C dA dB)) := by
  refine ⟨_, _, by simp only [DivFunctor.Backward, if_true]; rfl, ?_, ?_,
    fun hz => Backward_eq_ComputeDivGradient_of_zero_add hz S dC A B C dA dB⟩
  · intro i hi
    obtain ⟨h1, h2⟩ := ComputeDivGradient_equal_shapes S dC B C dA dB i hi
    rw [h1, h2]
    simp [math.Div, foldl_mul_one_eq_prod, hi]
  · intro i hi
    have hi' : ¬ i < S.prod := by omega
    rw [ComputeDivGradient_eq S.length S S S rfl]
    simp [filter_broadcastIndex_self, math.Div, math.Set, foldl_mul_one_eq_prod, hi']

/-- C5, as stated, fails in IEEE arithmetic at a negative zero: on the shape `[2]`
with `dC = [+0, 2]`, `B = [1, 1]`, `C = [1, +0]` the fast path stores
`dB = [-0, -0]`, while the general kernel stores `0 + (-0) = +0` in both
elements. -/
theorem fast_path_ne_general_path_at_negative_zero :
    ∃ dA' dB' : Nat → IeeeValue,
      DivFunctor.Backward [2] [2] ieeeDC (fun _ => 0) ieeeB ieeeC (fun _ => 0)
        (fun _ => 0) = .ok (true, dA', dB') ∧
      dB' 0 = IeeeValue.zero true ∧ dB' 1 = IeeeValue.zero true ∧
      (ComputeDivGradient [2].length [2] [2] [2] ieeeDC ieeeB ieeeC (fun _ => 0)
        (fun _ => 0)).2 0 = IeeeValue.zero false ∧
      (ComputeDivGradient [2].length [2] [2] [2] ieeeDC ieeeB ieeeC (fun _ => 0)
        (fun _ => 0)).2 1 = IeeeValue.zero false ∧
      dB' 0 ≠ (ComputeDivGradient [2].length [2] [2] [2] ieeeDC ieeeB ieeeC
        (fun _ => 0) (fun _ => 0)).2 0 := by
  have h0 := (ComputeDivGradient_equal_shapes [2] ieeeDC ieeeB ieeeC (fun _ => 0)
    (fun _ => 0) 0 (by decide)).2
  have h1 := (ComputeDivGradient_equal_shapes [2] ieeeDC ieeeB ieeeC (fun _ => 0)
    (fun _ => 0) 1 (by decide)).2
  refine ⟨_, _, by simp only [DivFunctor.Backward, if_true]; rfl, by decide,
    by decide, ?_, ?_, ?_⟩
  · rw [h0]
    decide
  · rw [h1]
    decide
  · rw [h0]
    decide

/-- C6. `Backward` computes the analytic derivative of division: over the reals,
on equal shapes, with `B` nonzero and `C[i] = A[i] / B[i]` the forward output,
`dA[i]` is `dC[i]` times the derivative of `a / B[i]` in `a` at `A[i]`, which is
`dC[i] / B[i]`, and `dB[i]` is `dC[i]` times the derivative of `A[i] / b` in `b`
at `B[i]`, which is `-dC[i] * A[i] / B[i] ^ 2`. -/
theorem Backward_analytic_derivative (S : List Nat) (dC A B C dA dB : Nat → ℝ)
    (hB : ∀ i, i < S.prod → B i ≠ 0) (hC : ∀ i, i < S.prod → C i = A i / B i) :
    ∃ dA' dB' : Nat → ℝ,
      DivFunctor.Backward S S dC A B C dA dB = .ok (true, dA', dB') ∧
      ∀ i, i < S.prod →
        ∃ da db : ℝ,
          HasDerivAt (fun a => a / B i) da (A i) ∧
          HasDerivAt (fun b => A i / b) db (B i) ∧
          dA' i = dC i * da ∧ dB' i = dC i * db ∧
          dA' i = dC i / B i ∧ dB' i = -dC i * A i / B i ^ 2 := by
  refine ⟨_, _, by simp only [DivFunctor.Backward, if_true]; rfl, ?_⟩
  intro i hi
  refine ⟨1 / B i, -A i / B i ^ 2, hasDerivAt_div_left (B i) (A i),
    hasDerivAt_div_right (A i) (B i) (hB i hi), ?_⟩
  simp only [math.Div, foldl_mul_one_eq_prod, hi, if_true, hC i hi]
  exact ⟨by ring, by ring, trivial, by ring⟩

/-- C6, at a concrete input: shape `[2]`, `A = 6`, `B = 3`, `C = 6 / 3`. -/
theorem Backward_analytic_derivative_witness :
    ∃ dA' dB' : Nat → ℝ,
      DivFunctor.Backward [2] [2] (fun _ => 1) (fun _ => 6) (fun _ => 3)
        (fun _ => 6 / 3) (fun _ => 0) (fun _ => 0) = .ok (true, dA', dB') ∧
      ∀ i, i < [2].prod →
        ∃ da db : ℝ,
          HasDerivAt (fun a => a / (3 : ℝ)) da 6 ∧
          HasDerivAt (fun b => (6 : ℝ) / b) db 3 ∧
          dA' i = 1 * da ∧ dB' i = 1 * db ∧
          dA' i = 1 / 3 ∧ dB' i = -1 * 6 / 3 ^ 2 :=
  Backward_analytic_derivative [2] (fun _ => 1) (fun _ => 6) (fun _ => 3)
    (fun _ => 6 / 3) (fun _ => 0) (fun _ => 0)
    (fun _ _ => three_ne_zero) (fun _ _ => rfl)

/-- C7. The resolver as `Backward` calls it, on broadcast-compatible shapes:
it returns three arrays of length `max (len A) (len B)`; the first two are `A`
and `B` padded on the left with 1s; and at every position the third holds the
maximum of the first two. -/
theorem ComputeBroadcastBinaryOpDims_compatible (A_dims B_dims : List Nat)
    (hc : BroadcastCompatible A_dims B_dims) :
    ∃ A_b B_b C_b : List Nat,
      math.utils.ComputeBroadcastBinaryOpDims A_dims.length A_dims
        B_dims.length B_dims = .ok (A_b, B_b, C_b) ∧
      A_b.length = max A_dims.length B_dims.length ∧
      B_b.length = max A_dims.length B_dims.length ∧
      C_b.length = max A_dims.length B_dims.length ∧
      A_b = List.replicate (max A_dims.length B_dims.length - A_dims.length) 1 ++ A_dims ∧
      B_b = List.replicate (max A_dims.length B_dims.length - B_dims.length) 1 ++ B_dims ∧
      ∀ i, i < max A_dims.length B_dims.length →
        C_b.getD i 0 = max (A_b.getD i 0) (B_b.getD i 0) := by
  have h := ComputeBroadcastBinaryOpDims_eq A_dims B_dims
  rw [if_pos hc] at h
  obtain ⟨l1, l2, l3⟩ := ComputeBroadcastBinaryOpDims_length h
  refine ⟨_, _, _, h, l1, l2, l3, rfl, rfl, ?_⟩
  intro i hi
  rw [← l1] at hi
  have hi2 : i < (padLeft (max A_dims.length B_dims.length) B_dims).length := by
    rw [l2, ← l1]
    exact hi
  simp only [List.getD_eq_getElem?_getD, List.getElem?_zipWith,
    List.getElem?_eq_getElem hi, List.getElem?_eq_getElem hi2, Option.getD_some]

/-- C7, at a concrete input: the shapes `[3, 1]` and `[3, 4]` resolve to
`C_dims = [3, 4]`. -/
theorem ComputeBroadcastBinaryOpDims_compatible_witness :
    BroadcastCompatible [3, 1] [3, 4] ∧
    math.utils.ComputeBroadcastBinaryOpDims [3, 1].length [3, 1] [3, 4].length [3, 4] =
      .ok ([3, 1], [3, 4], [3, 4]) ∧
    ∃ A_b B_b C_b : List Nat,
      math.utils.ComputeBroadcastBinaryOpDims [3, 1].length [3, 1]
        [3, 4].length [3, 4] = .ok (A_b, B_b, C_b) ∧
      A_b.length = max [3, 1].length [3, 4].length ∧
      B_b.length = max [3, 1].length [3, 4].length ∧
      C_b.length = max [3, 1].length [3, 4].length ∧
      A_b = List.replicate (max [3, 1].length [3, 4].length - [3, 1].length) 1 ++ [3, 1] ∧
      B_b = List.replicate (max [3, 1].length [3, 4].length - [3, 4].length) 1 ++ [3, 4] ∧
      ∀ i, i < max [3, 1].length [3, 4].length →
        C_b.getD i 0 = max (A_b.getD i 0) (B_b.getD i 0) :=
  ⟨by decide, rfl, ComputeBroadcastBinaryOpDims_compatible [3, 1] [3, 4] (by decide)⟩

/-- C8. Incompatible shapes are rejected: when some right-aligned pair of sizes
is neither a pair of equal sizes nor includes a 1, `Backward` fails with
`IncompatibleShapeError` and returns no gradients. -/
theorem Backward_incompatible_shapes {α : Type} [Zero α] [Add α] [Neg α] [Mul α] [Div α]
    (A_dims B_dims : List Nat)
    (h : ∃ p ∈ A_dims.reverse.zip B_dims.reverse, p.1 ≠ p.2 ∧ p.1 ≠ 1 ∧ p.2 ≠ 1)
    (dC A B C dA dB : Nat → α) :
    DivFunctor.Backward A_dims B_dims dC A B C dA dB =
      .error Error.IncompatibleShapeError := by
  obtain ⟨p, hp, h1, h2, h3⟩ := h
  have hne : A_dims ≠ B_dims := by
    intro e
    subst e
    exact h1 (eq_of_mem_zip_self _ p hp)
  have hc : ¬ BroadcastCompatible A_dims B_dims := by
    intro hc
    rcases hc p hp with e | e | e
    · exact h1 e
    · exact h2 e
    · exact h3 e
  exact Backward_of_incompatible hne hc dC A B C dA dB

/-- C8, at a concrete input: the shapes `[2, 3]` and `[2, 4]`. -/
theorem Backward_incompatible_shapes_witness :
    (∃ p ∈ ([2, 3] : List Nat).reverse.zip ([2, 4] : List Nat).reverse,
      p.1 ≠ p.2 ∧ p.1 ≠ 1 ∧ p.2 ≠ 1) ∧
    DivFunctor.Backward [2, 3] [2, 4] sampleDC (fun _ => 0) sampleB sampleC
      (fun _ => 7) (fun _ => 9) = .error Error.IncompatibleShapeError :=
  ⟨by decide, Backward_incompatible_shapes [2, 3] [2, 4] (by decide)
    sampleDC (fun _ => 0) sampleB sampleC (fun _ => 7) (fun _ => 9)⟩

/-- C9. The outputs of `Backward` depend only on the shapes and on `dC`, `B`, `C`:
two calls that agree on these are observed alike (the same failure, or the same
flag and the same contents of `dA` and `dB`), whatever `dA` and `dB` held before
and whatever the unused input `A` holds; in particular buffers filled with
garbage behave as zeroed ones. -/
theorem Backward_observed_independent {α : Type} [Zero α] [Add α] [Neg α] [Mul α] [Div α]
    (A_dims B_dims : List Nat) (dC B C : Nat → α)
    (A₁ A₂ dA₁ dA₂ dB₁ dB₂ : Nat → α) :
    observed A_dims B_dims (DivFunctor.Backward A_dims B_dims dC A₁ B C dA₁ dB₁) =
      observed A_dims B_dims (DivFunctor.Backward A_dims B_dims dC A₂ B C dA₂ dB₂) := by
  by_cases heq : A_dims = B_dims
  · subst heq
    simp only [DivFunctor.Backward, if_true, observed, readBuffer,
      foldl_mul_one_eq_prod]
    congr 3
    · apply List.map_congr_left
      intro i hi
      simp [math.Div, List.mem_range.mp hi]
    · apply List.map_congr_left
      intro i hi
      simp [List.mem_range.mp hi]
  · by_cases hc : BroadcastCompatible A_dims B_dims
    · have lC : (List.zipWith max (padLeft (max A_dims.length B_dims.length) A_dims)
          (padLeft (max A_dims.length B_dims.length) B_dims)).length =
          max A_dims.length B_dims.length := by
        rw [List.length_zipWith, length_padLeft _ _ (Nat.le_max_left _ _),
          length_padLeft _ _ (Nat.le_max_right _ _)]
        simp
      rw [Backward_of_compatible heq hc, Backward_of_compatible heq hc]
      simp only [observed, readBuffer]
      congr 3
      · apply List.map_congr_left
        intro a ha
        have ha' : a < (List.take (max A_dims.length B_dims.length)
            (padLeft (max A_dims.length B_dims.length) A_dims)).prod := by
          rw [List.take_of_length_le
            (by rw [length_padLeft _ _ (Nat.le_max_left _ _)]), prod_padLeft]
          exact List.mem_range.mp ha
        rw [ComputeDivGradient_fst _ _ _ _ lC _ _ _ _ _ a ha',
          ComputeDivGradient_fst _ _ _ _ lC _ _ _ _ _ a ha']
      · apply List.map_congr_left
        intro b hb
        have hb' : b < (List.take (max A_dims.length B_dims.length)
            (padLeft (max A_dims.length B_dims.length) B_dims)).prod := by
          rw [List.take_of_length_le
            (by rw [length_padLeft _ _ (Nat.le_max_right _ _)]), prod_padLeft]
          exact List.mem_range.mp hb
        rw [ComputeDivGradient_snd _ _ _ _ lC _ _ _ _ _ b hb',
          ComputeDivGradient_snd _ _ _ _ lC _ _ _ _ _ b hb']
    · rw [Backward_of_incompatible heq hc, Backward_of_incompatible heq hc]

/-- C10. Gradient wiring of a `Div` node: `GetGradientDefs` returns exactly one
operator definition, a `DivGradient`, whose four inputs are, in order, the
gradient of output 0, forward input 0, forward input 1 and forward output 0, and
whose two outputs are, in order, the gradients of input 0 and of input 1. -/
theorem GetGradientDefs_wiring (GO I O GI : Nat → String) :
    ∃ d : OperatorDef,
      GetDivGradient.GetGradientDefs GO I O GI = [d] ∧
      d.type = "DivGradient" ∧
      d.input = [GO 0, I 0, I 1, O 0] ∧
      d.output = [GI 0, GI 1] :=
  ⟨_, rfl, rfl, rfl, rfl⟩

/-- C11. Row-major walk of the general kernel: the loop of `ComputeDivGradient`
runs over the flat indices `0, 1, ..., product(C_dims) - 1` in this order; at the
start of iteration `k` the multi-index, started at all zeros and advanced by
`IncreaseIndexInDims`, is the row-major coordinate vector of `k`, a position of
the output space; and every position of the output space is the coordinate
vector of exactly one `k` below the product, so each is visited exactly once. -/
theorem ComputeDivGradient_row_major_walk {α : Type} [Zero α] [Add α] [Neg α] [Mul α]
    [Div α] (A_dims B_dims C_dims : List Nat) (dC B C dA dB : Nat → α) :
    ComputeDivGradient C_dims.length A_dims B_dims C_dims dC B C dA dB =
      (((List.range C_dims.prod).foldl
          (ComputeDivGradientBody C_dims.length A_dims B_dims C_dims dC B C)
          (math.Set (A_dims.take C_dims.length).prod 0 dA,
            math.Set (B_dims.take C_dims.length).prod 0 dB,
            List.replicate C_dims.length 0)).1,
       ((List.range C_dims.prod).foldl
          (ComputeDivGradientBody C_dims.length A_dims B_dims C_dims dC B C)
          (math.Set (A_dims.take C_dims.length).prod 0 dA,
            math.Set (B_dims.take C_dims.length).prod 0 dB,
            List.replicate C_dims.length 0)).2.1) ∧
    (List.range C_dims.prod).length = C_dims.prod ∧
    (∀ k, k < C_dims.prod →
      ((List.range k).foldl
          (ComputeDivGradientBody C_dims.length A_dims B_dims C_dims dC B C)
          (math.Set (A_dims.take C_dims.length).prod 0 dA,
            math.Set (B_dims.take C_dims.length).prod 0 dB,
            List.replicate C_dims.length 0)).2.2 = unravelIndex C_dims k ∧
      List.Forall₂ (· < ·) (unravelIndex C_dims k) C_dims) ∧
    (∀ idx, List.Forall₂ (· < ·) idx C_dims →
      ∃! k, k < C_dims.prod ∧ unravelIndex C_dims k = idx) := by
  refine ⟨?_, List.length_range _, ?_, ?_⟩
  · simp only [ComputeDivGradient, foldl_mul_one_eq_prod, List.take_length]
  · intro k hk
    refine ⟨?_, unravelIndex_lt C_dims (pos_of_mem_of_prod_pos (by omega)) k⟩
    rw [← unravelIndex_zero,
      ComputeDivGradient_loop A_dims B_dims C_dims dC B C _ _ k (by omega)]
  · intro idx hidx
    obtain ⟨hlt, hun⟩ := strideOffset_of_lt hidx
    refine ⟨strideOffset C_dims idx, ⟨hlt, hun⟩, ?_⟩
    rintro k ⟨hk, hk'⟩
    exact unravelIndex_injOn C_dims k _ hk hlt (by rw [hk', hun])

/-- C12. Stride-0 index mapping: for dimension arrays and a multi-index of `ndim`
components, the `A_index` that `GetIndexFromDims` computes is the sum over the
axes of `stride_A[i] * (A_dims[i] = 1 ? 0 : idx[i])`, with `stride_A[i]` the
product of the sizes to the right of axis `i`; and likewise `B_index` against
`B_dims`. -/
theorem GetIndexFromDims_stride_zero (ndim : Nat) (A_dims B_dims idx : List Nat)
    (hA : A_dims.length = ndim) (hB : B_dims.length = ndim) (hidx : idx.length = ndim) :
    math.utils.GetIndexFromDims ndim A_dims idx =
        ((List.range ndim).map (fun i =>
          (A_dims.drop (i + 1)).prod * (if A_dims.getD i 0 = 1 then 0 else idx.getD i 0))).sum ∧
    math.utils.GetIndexFromDims ndim B_dims idx =
        ((List.range ndim).map (fun i =>
          (B_dims.drop (i + 1)).prod * (if B_dims.getD i 0 = 1 then 0 else idx.getD i 0))).sum := by
  rw [GetIndexFromDims_eq_strideOffset ndim A_dims idx hA hidx,
    GetIndexFromDims_eq_strideOffset ndim B_dims idx hB hidx]
  subst hA
  exact ⟨rfl, by rw [strideOffset, hB]; rfl⟩

/-- C12, at a concrete input: `A_dims = [3, 1]`, `B_dims = [3, 4]` and the
multi-index `[2, 3]` give `A_index = 2` and `B_index = 11`. -/
theorem GetIndexFromDims_stride_zero_witness :
    ([3, 1] : List Nat).length = 2 ∧ ([3, 4] : List Nat).length = 2 ∧
    ([2, 3] : List Nat).length = 2 ∧
    math.utils.GetIndexFromDims 2 [3, 1] [2, 3] = 2 ∧
    math.utils.GetIndexFromDims 2 [3, 4] [2, 3] = 11 ∧
    (math.utils.GetIndexFromDims 2 [3, 1] [2, 3] =
        ((List.range 2).map (fun i =>
          (([3, 1] : List Nat).drop (i + 1)).prod *
            (if ([3, 1] : List Nat).getD i 0 = 1 then 0 else ([2, 3] : List Nat).getD i 0))).sum ∧
      math.utils.GetIndexFromDims 2 [3, 4] [2, 3] =
        ((List.range 2).map (fun i =>
          (([3, 4] : List Nat).drop (i + 1)).prod *
            (if ([3, 4] : List Nat).getD i 0 = 1 then 0 else ([2, 3] : List Nat).getD i 0))).sum) :=
  ⟨rfl, rfl, rfl, by decide, by decide,
    GetIndexFromDims_stride_zero 2 [3, 1] [3, 4] [2, 3] rfl rfl rfl⟩

theorem Backward_linear_of_field {α : Type} [Field α] (A_dims B_dims : List Nat)
    (hc : BroadcastCompatible A_dims B_dims) (dC₁ dC₂ A B C dA dB : Nat → α) (k : α) :
    ∃ dA₁ dB₁ dA₂ dB₂ dAs dBs dAk dBk dAz dBz : Nat → α,
      DivFunctor.Backward A_dims B_dims dC₁ A B C dA dB = .ok (true, dA₁, dB₁) ∧
      DivFunctor.Backward A_dims B_dims dC₂ A B C dA dB = .ok (true, dA₂, dB₂) ∧
      DivFunctor.Backward A_dims B_dims (fun c => dC₁ c + dC₂ c) A B C dA dB =
        .ok (true, dAs, dBs) ∧
      DivFunctor.Backward A_dims B_dims (fun c => k * dC₁ c) A B C dA dB =
        .ok (true, dAk, dBk) ∧
      DivFunctor.Backward A_dims B_dims (fun _ => 0) A B C dA dB =
        .ok (true, dAz, dBz) ∧
      (∀ a, a < A_dims.prod →
        dAs a = dA₁ a + dA₂ a ∧ dAk a = k * dA₁ a ∧ dAz a = 0) ∧
      (∀ b, b < B_dims.prod →
        dBs b = dB₁ b + dB₂ b ∧ dBk b = k * dB₁ b ∧ dBz b = 0) := by
  by_cases heq : A_dims = B_dims
  · subst heq
    refine ⟨_, _, _, _, _, _, _, _, _, _,
      by simp only [DivFunctor.Backward, if_true]; rfl,
      by simp only [DivFunctor.Backward, if_true]; rfl,
      by simp only [DivFunctor.Backward, if_true]; rfl,
      by simp only [DivFunctor.Backward, if_true]; rfl,
      by simp only [DivFunctor.Backward, if_true]; rfl, ?_, ?_⟩
    · intro a ha
      simp only [math.Div, foldl_mul_one_eq_prod, ha, if_true]
      exact ⟨by ring, by ring, by simp⟩
    · intro b hb
      simp only [foldl_mul_one_eq_prod, hb, if_true]
      exact ⟨by ring, by ring, by simp⟩
  · have lC : (List.zipWith max (padLeft (max A_dims.length B_dims.length) A_dims)
        (padLeft (max A_dims.length B_dims.length) B_dims)).length =
        max A_dims.length B_dims.length := by
      rw [List.length_zipWith, length_padLeft _ _ (Nat.le_max_left _ _),
        length_padLeft _ _ (Nat.le_max_right _ _)]
      simp
    refine ⟨_, _, _, _, _, _, _, _, _, _,
      Backward_of_compatible heq hc dC₁ A B C dA dB,
      Backward_of_compatible heq hc dC₂ A B C dA dB,
      Backward_of_compatible heq hc _ A B C dA dB,
      Backward_of_compatible heq hc _ A B C dA dB,
      Backward_of_compatible heq hc _ A B C dA dB, ?_, ?_⟩
    · intro a ha
      have ha' : a < (List.take (max A_dims.length B_dims.length)
          (padLeft (max A_dims.length B_dims.length) A_dims)).prod := by
        rw [List.take_of_length_le
          (by rw [length_padLeft _ _ (Nat.le_max_left _ _)]), prod_padLeft]
        exact ha
      have hf := fun dC : Nat → α =>
        ComputeDivGradient_fst _ _ (padLeft (max A_dims.length B_dims.length) B_dims)
          _ lC dC B C dA dB a ha'
      simp only [hf]
      refine ⟨?_, ?_, ?_⟩
      · rw [← sumInOrder_map_add]
        congr 2
        funext c
        ring
      · rw [← sumInOrder_map_mul_left]
        congr 2
        funext c
        ring
      · simp only [zero_div, sumInOrder_map_zero]
    · intro b hb
      have hb' : b < (List.take (max A_dims.length B_dims.length)
          (padLeft (max A_dims.length B_dims.length) B_dims)).prod := by
        rw [List.take_of_length_le
          (by rw [length_padLeft _ _ (Nat.le_max_right _ _)]), prod_padLeft]
        exact hb
      have hf := fun dC : Nat → α =>
        ComputeDivGradient_snd _ (padLeft (max A_dims.length B_dims.length) A_dims)
          _ _ lC dC B C dA dB b hb'
      simp only [hf]
      refine ⟨?_, ?_, ?_⟩
      · rw [← sumInOrder_map_add]
        congr 2
        funext c
        ring
      · rw [← sumInOrder_map_mul_left]
        congr 2
        funext c
        ring
      · simp only [neg_zero, zero_mul, zero_div, sumInOrder_map_zero]

theorem Backward_zero_gradient_int (A_dims B_dims : List Nat)
    (hc : BroadcastCompatible A_dims B_dims) (A B C dA dB : Nat → Int) :
    ∃ dAz dBz : Nat → Int,
      DivFunctor.Backward A_dims B_dims (fun _ => 0) A B C dA dB =
        .ok (true, dAz, dBz) ∧
      (∀ a, a < A_dims.prod → dAz a = 0) ∧ (∀ b, b < B_dims.prod → dBz b = 0) := by
  by_cases heq : A_dims = B_dims
  · subst heq
    refine ⟨_, _, by simp only [DivFunctor.Backward, if_true]; rfl, ?_, ?_⟩
    · intro a ha
      simp [math.Div, foldl_mul_one_eq_prod, ha]
    · intro b hb
      simp [foldl_mul_one_eq_prod, hb]
  · have lC : (List.zipWith max (padLeft (max A_dims.length B_dims.length) A_dims)
        (padLeft (max A_dims.length B_dims.length) B_dims)).length =
        max A_dims.length B_dims.length := by
      rw [List.length_zipWith, length_padLeft _ _ (Nat.le_max_left _ _),
        length_padLeft _ _ (Nat.le_max_right _ _)]
      simp
    refine ⟨_, _, Backward_of_compatible heq hc _ A B C dA dB, ?_, ?_⟩
    · intro a ha
      have ha' : a < (List.take (max A_dims.length B_dims.length)
          (padLeft (max A_dims.length B_dims.length) A_dims)).prod := by
        rw [List.take_of_length_le
          (by rw [length_padLeft _ _ (Nat.le_max_left _ _)]), prod_padLeft]
        exact ha
      rw [ComputeDivGradient_fst _ _ (padLeft (max A_dims.length B_dims.length) B_dims)
        _ lC _ B C dA dB a ha']
      simp only [Int.zero_ediv, sumInOrder_map_zero]
    · intro b hb
      have hb' : b < (List.take (max A_dims.length B_dims.length)
          (padLeft (max A_dims.length B_dims.length) B_dims)).prod := by
        rw [List.take_of_length_le
          (by rw [length_padLeft _ _ (Nat.le_max_right _ _)]), prod_padLeft]
        exact hb
      rw [ComputeDivGradient_snd _ (padLeft (max A_dims.length B_dims.length) A_dims)
        _ _ lC _ B C dA dB b hb']
      simp only [neg_zero, zero_mul, Int.zero_ediv, sumInOrder_map_zero]

/-- C14, as amended. Linearity in the upstream gradient, for broadcast-compatible
shapes (equal shapes included, so on both paths), fixed `B` and `C`, and `B`
nonzero.  Over a field the results of `Backward` on `dC₁ + dC₂` are the sums of
the results on `dC₁` and on `dC₂`, the results on `k * dC₁` are `k` times the
results on `dC₁`, and the results on the zero gradient are zero, at every index
of `dA` and of `dB`.  Over the integers the results on the zero gradient are
zero as well.  The denominators are taken nonzero because only there is a
quotient of the embedding the quotient of the code: a zero denominator gives
NaN or an infinity in IEEE arithmetic and is undefined for the integer types. -/
theorem Backward_linear_in_dC {α : Type} [Field α] (A_dims B_dims : List Nat)
    (hc : BroadcastCompatible A_dims B_dims) (dC₁ dC₂ A B C dA dB : Nat → α) (k : α)
    (hB : ∀ i, i < B_dims.prod → B i ≠ 0)
    (Ai Bi Ci dAi dBi : Nat → Int) (hBi : ∀ i, i < B_dims.prod → Bi i ≠ 0) :
    (∃ dA₁ dB₁ dA₂ dB₂ dAs dBs dAk dBk dAz dBz : Nat → α,
      DivFunctor.Backward A_dims B_dims dC₁ A B C dA dB = .ok (true, dA₁, dB₁) ∧
      DivFunctor.Backward A_dims B_dims dC₂ A B C dA dB = .ok (true, dA₂, dB₂) ∧
      DivFunctor.Backward A_dims B_dims (fun c => dC₁ c + dC₂ c) A B C dA dB =
        .ok (true, dAs, dBs) ∧
      DivFunctor.Backward A_dims B_dims (fun c => k * dC₁ c) A B C dA dB =
        .ok (true, dAk, dBk) ∧
      DivFunctor.Backward A_dims B_dims (fun _ => 0) A B C dA dB =
        .ok (true, dAz, dBz) ∧
      (∀ a, a < A_dims.prod →
        dAs a = dA₁ a + dA₂ a ∧ dAk a = k * dA₁ a ∧ dAz a = 0) ∧
      (∀ b, b < B_dims.prod →
        dBs b = dB₁ b + dB₂ b ∧ dBk b = k * dB₁ b ∧ dBz b = 0)) ∧
    (∃ dAz dBz : Nat → Int,
      DivFunctor.Backward A_dims B_dims (fun _ => 0) Ai Bi Ci dAi dBi =
        .ok (true, dAz, dBz) ∧
      (∀ a, a < A_dims.prod → dAz a = 0) ∧ (∀ b, b < B_dims.prod → dBz b = 0)) :=
  have _ := hB
  have _ := hBi
  ⟨Backward_linear_of_field A_dims B_dims hc dC₁ dC₂ A B C dA dB k,
    Backward_zero_gradient_int A_dims B_dims hc Ai Bi Ci dAi dBi⟩

/-- C14 as amended, at a concrete input: the shapes `[2, 1]` and `[2, 3]`, over
the rationals with `B = 2` and the scalar `3`, and over the integers with
`B = 1, 2, 3, ...`. -/
theorem Backward_linear_in_dC_witness :
    BroadcastCompatible [2, 1] [2, 3] ∧
    (∀ i, i < ([2, 3] : List Nat).prod → (fun _ : Nat => (2 : ℚ)) i ≠ 0) ∧
    (∀ i, i < ([2, 3] : List Nat).prod → sampleB i ≠ 0) ∧
    (∃ dA₁ dB₁ dA₂ dB₂ dAs dBs dAk dBk dAz dBz : Nat → ℚ,
      DivFunctor.Backward [2, 1] [2, 3] exampleDC exampleA (fun _ => 2) exampleC
        (fun _ => 7) (fun _ => 9) = .ok (true, dA₁, dB₁) ∧
      DivFunctor.Backward [2, 1] [2, 3] exampleB exampleA (fun _ => 2) exampleC
        (fun _ => 7) (fun _ => 9) = .ok (true, dA₂, dB₂) ∧
      DivFunctor.Backward [2, 1] [2, 3] (fun c => exampleDC c + exampleB c) exampleA
        (fun _ => 2) exampleC (fun _ => 7) (fun _ => 9) = .ok (true, dAs, dBs) ∧
      DivFunctor.Backward [2, 1] [2, 3] (fun c => 3 * exampleDC c) exampleA
        (fun _ => 2) exampleC (fun _ => 7) (fun _ => 9) = .ok (true, dAk, dBk) ∧
      DivFunctor.Backward [2, 1] [2, 3] (fun _ => 0) exampleA
        (fun _ => 2) exampleC (fun _ => 7) (fun _ => 9) = .ok (true, dAz, dBz) ∧
      (∀ a, a < [2, 1].prod →
        dAs a = dA₁ a + dA₂ a ∧ dAk a = 3 * dA₁ a ∧ dAz a = 0) ∧
      (∀ b, b < [2, 3].prod →
        dBs b = dB₁ b + dB₂ b ∧ dBk b = 3 * dB₁ b ∧ dBz b = 0)) ∧
    (∃ dAz dBz : Nat → Int,
      DivFunctor.Backward [2, 1] [2, 3] (fun _ => 0) (fun _ => 0) sampleB sampleC
        (fun _ => 7) (fun _ => 9) = .ok (true, dAz, dBz) ∧
      (∀ a, a < [2, 1].prod → dAz a = 0) ∧ (∀ b, b < [2, 3].prod → dBz b = 0)) :=
  ⟨by decide, fun _ _ => two_ne_zero, by decide,
    Backward_linear_in_dC [2, 1] [2, 3] (by decide) exampleDC exampleB exampleA
      (fun _ => 2) exampleC (fun _ => 7) (fun _ => 9) 3 (fun _ _ => two_ne_zero)
      (fun _ => 0) sampleB sampleC (fun _ => 7) (fun _ => 9) (by decide)⟩

/-- C14, as stated, fails with an integer element type, whose quotient
truncates: on the shape `[1]` with `B = 2`, the upstream gradients `1` and `3`
give `dA = 0` and `dA = 1`, while their sum `4` gives `dA = 2`; and the scalar
`2` times the gradient `1` gives `dA = 1`, not `2 * 0`.  All operands are
non-negative, where every rounding convention of integer division agrees. -/
theorem Backward_not_linear_over_integers :
    ∃ dA₁ dB₁ dA₂ dB₂ dAs dBs dAk dBk : Nat → Int,
      DivFunctor.Backward [1] [1] (fun _ => 1) (fun _ => 0) (fun _ => 2) (fun _ => 0)
        (fun _ => 0) (fun _ => 0) = .ok (true, dA₁, dB₁) ∧
      DivFunctor.Backward [1] [1] (fun _ => 3) (fun _ => 0) (fun _ => 2) (fun _ => 0)
        (fun _ => 0) (fun _ => 0) = .ok (true, dA₂, dB₂) ∧
      DivFunctor.Backward [1] [1] (fun _ => 1 + 3) (fun _ => 0) (fun _ => 2) (fun _ => 0)
        (fun _ => 0) (fun _ => 0) = .ok (true, dAs, dBs) ∧
      DivFunctor.Backward [1] [1] (fun _ => 2 * 1) (fun _ => 0) (fun _ => 2) (fun _ => 0)
        (fun _ => 0) (fun _ => 0) = .ok (true, dAk, dBk) ∧
      dA₁ 0 = 0 ∧ dA₂ 0 = 1 ∧ dAs 0 = 2 ∧ dAk 0 = 1 ∧
      dAs 0 ≠ dA₁ 0 + dA₂ 0 ∧ dAk 0 ≠ 2 * dA₁ 0 := by
  refine ⟨_, _, _, _, _, _, _, _,
    by simp only [DivFunctor.Backward, if_true]; rfl,
    by simp only [DivFunctor.Backward, if_true]; rfl,
    by simp only [DivFunctor.Backward, if_true]; rfl,
    by simp only [DivFunctor.Backward, if_true]; rfl, ?_⟩
  simp only [math.Div]
  decide

/-- C15. Shapes that differ only by leading size-1 dimensions: when `A_dims` and
`B_dims` are unequal but both pad on the left with 1s to the same shape `S`,
`Backward` succeeds through the general kernel run on `(S, S, S)` and, in an
arithmetic where `0 + x = x`, leaves the elementwise result
`dA[i] = dC[i] / B[i]` and `dB[i] = (-dC[i] * C[i]) / B[i]` for every `i` below the
product of `S`. -/
theorem Backward_leading_ones {α : Type} [AddZeroClass α] [Neg α] [Mul α] [Div α]
    (A_dims B_dims S : List Nat) (hne : A_dims ≠ B_dims)
    (hA : padLeft (max A_dims.length B_dims.length) A_dims = S)
    (hB : padLeft (max A_dims.length B_dims.length) B_dims = S)
    (dC A B C dA dB : Nat → α) :
    ∃ dA' dB' : Nat → α,
      DivFunctor.Backward A_dims B_dims dC A B C dA dB = .ok (true, dA', dB') ∧
      dA' = (ComputeDivGradient S.length S S S dC B C dA dB).1 ∧
      dB' = (ComputeDivGradient S.length S S S dC B C dA dB).2 ∧
      ∀ i, i < S.prod → dA' i = dC i / B i ∧ dB' i = -dC i * C i / B i := by
  have hc : BroadcastCompatible A_dims B_dims :=
    BroadcastCompatible_of_padLeft_eq A_dims B_dims (by rw [hA, hB])
  have hl : S.length = max A_dims.length B_dims.length := by
    rw [← hA, length_padLeft _ _ (Nat.le_max_left _ _)]
  have hb := Backward_of_compatible hne hc dC A B C dA dB
  rw [hA, hB, zipWith_max_self, ← hl] at hb
  refine ⟨_, _, hb, rfl, rfl, ?_⟩
  intro i hi
  obtain ⟨h1, h2⟩ := ComputeDivGradient_equal_shapes S dC B C dA dB i hi
  rw [h1, h2, zero_add, zero_add]
  exact ⟨rfl, rfl⟩

/-- C15, at a concrete input: the shapes `[1, 3]` and `[3]` over the integers. -/
theorem Backward_leading_ones_witness :
    ([1, 3] : List Nat) ≠ [3] ∧
    padLeft (max [1, 3].length [3].length) [1, 3] = [1, 3] ∧
    padLeft (max [1, 3].length [3].length) [3] = [1, 3] ∧
    ∃ dA' dB' : Nat → Int,
      DivFunctor.Backward [1, 3] [3] sampleDC (fun _ => 0) sampleB sampleC
        (fun _ => 7) (fun _ => 9) = .ok (true, dA', dB') ∧
      dA' = (ComputeDivGradient [1, 3].length [1, 3] [1, 3] [1, 3] sampleDC sampleB
        sampleC (fun _ => 7) (fun _ => 9)).1 ∧
      dB' = (ComputeDivGradient [1, 3].length [1, 3] [1, 3] [1, 3] sampleDC sampleB
        sampleC (fun _ => 7) (fun _ => 9)).2 ∧
      ∀ i, i < [1, 3].prod →
        dA' i = sampleDC i / sampleB i ∧ dB' i = -sampleDC i * sampleC i / sampleB i :=
  ⟨by decide, by decide, by decide,
    Backward_leading_ones [1, 3] [3] [1, 3] (by decide) (by decide) (by decide)
      sampleDC (fun _ => 0) sampleB sampleC (fun _ => 7) (fun _ => 9)⟩

end caffe2
